import Mathlib

/-!
Verification development for the caddy-atc local-development gateway.

The definitions below are shallow embeddings of the Go sources:
internal/config (validators, registry store), internal/watcher
(HTTP port detection, Caddyfile rendering, route table),
internal/adopt (primary-service election), and internal/start
(compose port stripping).  Strings are modelled as Lean strings,
Go byte lengths as UTF-8 byte sizes, fallible functions as Except,
and file-system state is passed explicitly.
-/

deriving instance DecidableEq for Except

namespace CaddyAtc

/-! ## Validators (internal/config/config.go) -/

/-- Character class of the regular expression body [a-zA-Z0-9._-]. -/
def isNameChar (c : Char) : Bool :=
  (('a' ≤ c && c ≤ 'z') || ('A' ≤ c && c ≤ 'Z') || ('0' ≤ c && c ≤ '9')
    || c = '.' || c = '_' || c = '-')

/-- Leading character class [a-zA-Z0-9]. -/
def isNameHeadChar (c : Char) : Bool :=
  (('a' ≤ c && c ≤ 'z') || ('A' ≤ c && c ≤ 'Z') || ('0' ≤ c && c ≤ '9'))

/-- Anchored match of the Go regexp validName, the pattern
being the caret, then [a-zA-Z0-9], then [a-zA-Z0-9._-] star, then
the dollar sign: first char alphanumeric, every later char in the
extended class. -/
def validNameMatch (s : String) : Bool :=
  match s.data with
  | [] => false
  | c :: rest => isNameHeadChar c && rest.all isNameChar

/-- ValidateHostname from internal/config/config.go.  Go len(s) counts
bytes, modelled by the UTF-8 byte size. -/
def ValidateHostname (s : String) : Except String Unit :=
  if s = "" then
    .error "hostname cannot be empty"
  else if s.utf8ByteSize > 253 then
    .error ("hostname too long: " ++ toString s.utf8ByteSize ++ " chars (max 253)")
  else if !validNameMatch s then
    .error ("invalid hostname " ++ s ++ ": must match [a-zA-Z0-9][a-zA-Z0-9._-]*")
  else
    .ok ()

/-- ValidateContainerName from internal/config/config.go. -/
def ValidateContainerName (s : String) : Except String Unit :=
  if s = "" then
    .error "container name cannot be empty"
  else if !validNameMatch s then
    .error ("invalid container name " ++ s ++ ": must match [a-zA-Z0-9][a-zA-Z0-9._-]*")
  else
    .ok ()

/-- ValidatePort from internal/config/config.go: non-empty and every
rune is a decimal digit. -/
def ValidatePort (s : String) : Except String Unit :=
  if s = "" then
    .error "port cannot be empty"
  else if !s.data.all (fun c => '0' ≤ c && c ≤ '9') then
    .error ("invalid port " ++ s ++ ": must be numeric")
  else
    .ok ()

example : ValidateHostname "myapp.localhost" = .ok () := by decide
example : ValidateHostname "bad\x7bhost" ≠ .ok () := by decide
example : ValidateContainerName "worker-1" = .ok () := by decide
example : ValidatePort "8000" = .ok () := by decide
example : ValidatePort "abc" ≠ .ok () := by decide

/-! ### Validator lemmas -/

theorem isNameChar_of_head {c : Char} (h : isNameHeadChar c = true) :
    isNameChar c = true := by
  unfold isNameHeadChar at h
  unfold isNameChar
  simp only [Bool.or_eq_true] at h ⊢
  tauto

theorem validNameMatch_false_of_badChar {s : String} {c : Char}
    (hc : c ∈ s.data) (hBody : isNameChar c = false) :
    validNameMatch s = false := by
  rcases hs : s.data with _ | ⟨hd, tl⟩
  · rw [hs] at hc; simp at hc
  · rw [hs] at hc
    unfold validNameMatch
    rw [hs]
    show (isNameHeadChar hd && tl.all isNameChar) = false
    rcases List.mem_cons.mp hc with hEq | hMem
    · subst hEq
      have hh : isNameHeadChar c = false := by
        cases hHead : isNameHeadChar c
        · rfl
        · rw [isNameChar_of_head hHead] at hBody; cases hBody
      rw [hh]
      simp
    · have ht : tl.all isNameChar = false := by
        cases hAll : tl.all isNameChar
        · rfl
        · rw [List.all_eq_true] at hAll
          rw [hAll c hMem] at hBody; cases hBody
      rw [ht]
      simp

theorem validNameMatch_false_of_badHead {s : String} {c : Char} {rest : List Char}
    (hs : s.data = c :: rest) (hHead : isNameHeadChar c = false) :
    validNameMatch s = false := by
  unfold validNameMatch
  rw [hs]
  show (isNameHeadChar c && rest.all isNameChar) = false
  rw [hHead]
  simp

theorem validateHostname_ok_iff (s : String) :
    ValidateHostname s = .ok () ↔
      (s ≠ "" ∧ s.utf8ByteSize ≤ 253 ∧ validNameMatch s = true) := by
  constructor
  · intro h
    by_cases h0 : s = ""
    · simp [ValidateHostname, h0] at h
    · by_cases h1 : s.utf8ByteSize > 253
      · simp [ValidateHostname, h0, h1] at h
      · by_cases h2 : validNameMatch s
        · exact ⟨h0, by omega, h2⟩
        · simp [ValidateHostname, h0, h1, h2] at h
  · rintro ⟨h0, h1, h2⟩
    have h1' : ¬ s.utf8ByteSize > 253 := by omega
    simp [ValidateHostname, h0, h1', h2]

theorem validateContainerName_ok_iff (s : String) :
    ValidateContainerName s = .ok () ↔ (s ≠ "" ∧ validNameMatch s = true) := by
  constructor
  · intro h
    by_cases h0 : s = ""
    · simp [ValidateContainerName, h0] at h
    · by_cases h2 : validNameMatch s
      · exact ⟨h0, h2⟩
      · simp [ValidateContainerName, h0, h2] at h
  · rintro ⟨h0, h2⟩
    simp [ValidateContainerName, h0, h2]

theorem validatePort_ok_iff (s : String) :
    ValidatePort s = .ok () ↔
      (s ≠ "" ∧ ∀ c ∈ s.data, ('0' ≤ c ∧ c ≤ '9')) := by
  constructor
  · intro h
    by_cases h0 : s = ""
    · simp [ValidatePort, h0] at h
    · by_cases h2 : s.data.all (fun c => '0' ≤ c && c ≤ '9')
      · refine ⟨h0, ?_⟩
        intro c hc
        have := (List.all_eq_true.mp h2) c hc
        simpa using this
      · simp [ValidatePort, h0, h2] at h
  · rintro ⟨h0, h2⟩
    have hall : s.data.all (fun c => '0' ≤ c && c ≤ '9') = true := by
      rw [List.all_eq_true]
      intro c hc
      have := h2 c hc
      simpa using this
    simp [ValidatePort, h0, hall]

/-- C2: ValidateHostname accepts exactly the non-empty strings of at most
253 bytes matching the anchored regular language [A-Za-z0-9][A-Za-z0-9._-]*;
it rejects every string containing a space, an opening or closing brace, a
newline or a semicolon, and every string starting with a hyphen or a dot.
ValidateContainerName accepts exactly the non-empty strings matching the
same character class, with no length limit, and ValidatePort accepts
exactly the non-empty all-decimal-digit strings. -/
theorem C2_validator_predicates :
    (∀ s, ValidateHostname s = .ok () ↔
        (s ≠ "" ∧ s.utf8ByteSize ≤ 253 ∧ validNameMatch s = true))
  ∧ (∀ s, ∀ c ∈ s.data,
        (c = ' ' ∨ c = '\x7b' ∨ c = '\x7d' ∨ c = '\n' ∨ c = ';') →
        ValidateHostname s ≠ .ok ())
  ∧ (∀ s c rest, s.data = c :: rest → (c = '-' ∨ c = '.') →
        ValidateHostname s ≠ .ok ())
  ∧ (∀ s, ValidateContainerName s = .ok () ↔ (s ≠ "" ∧ validNameMatch s = true))
  ∧ (∀ s, ValidatePort s = .ok () ↔
        (s ≠ "" ∧ ∀ c ∈ s.data, ('0' ≤ c ∧ c ≤ '9'))) := by
  refine ⟨validateHostname_ok_iff, ?_, ?_, validateContainerName_ok_iff,
    validatePort_ok_iff⟩
  · intro s c hc hbad hok
    have hmatch := ((validateHostname_ok_iff s).mp hok).2.2
    have hbody : isNameChar c = false := by
      rcases hbad with h | h | h | h | h <;> subst h <;> decide
    rw [validNameMatch_false_of_badChar hc hbody] at hmatch
    cases hmatch
  · intro s c rest hs hbad hok
    have hmatch := ((validateHostname_ok_iff s).mp hok).2.2
    have hhead : isNameHeadChar c = false := by
      rcases hbad with h | h <;> subst h <;> decide
    rw [validNameMatch_false_of_badHead hs hhead] at hmatch
    cases hmatch

/-- Witness for C2 at concrete inputs. -/
theorem C2_validator_predicates_witness :
    ValidateHostname "bad\x7bhost" ≠ .ok () :=
  C2_validator_predicates.2.1 "bad\x7bhost" '\x7b' (by decide)
    (Or.inr (Or.inl rfl))

/-! ## Port detector (internal/watcher/detect.go) -/

/-- Known HTTP ports in priority order. -/
def httpPorts : List String :=
  ["80", "443", "3000", "3001", "4000", "5000", "5173", "8000", "8080", "8443"]

/-- Known non-HTTP ports to skip. -/
def skipPorts (p : String) : Bool :=
  ["5432", "3306", "27017", "6379", "5672", "15672", "9200", "9300",
   "2181", "9092", "11211"].contains p

/-- Known non-HTTP service names to skip. -/
def skipServices (s : String) : Bool :=
  ["postgres", "postgresql", "mysql", "mariadb", "mongo", "mongodb",
   "redis", "memcached", "rabbitmq", "elasticsearch", "zookeeper",
   "kafka", "mailhog", "mailpit", "minio"].contains s

/-- Projection of a Docker ContainerJSON inspection record: the
com.docker.compose.service label (empty when absent), the declared
exposed ports from the container config, and the runtime port bindings
from the network settings, both already stripped to their port number
by the nat.Port.Port accessor. -/
structure ContainerInfo where
  serviceLabel : String
  exposedPorts : List String
  boundPorts : List String

/-- Model of strconv.Atoi on the domain of port strings produced by
nat.Port.Port, which are decimal digit strings: parses a non-empty
all-digit string to its numeric value, anything else to none. -/
def goAtoi (s : String) : Option Nat :=
  if !s.data.isEmpty && s.data.all Char.isDigit then
    some (s.data.foldl (fun n c => n * 10 + (c.toNat - 48)) 0)
  else
    none

/-- One iteration of the lowest-port loop of DetectHTTPPort: skip ports in
the skip list and ports that do not parse as a number, otherwise keep
the numerically smaller port, the earlier one on ties. -/
def lowestStep (acc : Option (String × Nat)) (port : String) : Option (String × Nat) :=
  if skipPorts port then acc
  else
    match goAtoi port with
    | none => acc
    | some num =>
      match acc with
      | none => some (port, num)
      | some pn => if num < pn.2 then some (port, num) else acc

/-- DetectHTTPPort from internal/watcher/detect.go.  The union of the two
port maps is modelled by list concatenation; Go map iteration order is
unspecified, the fold here fixes the list order (the numeric minimum it
returns does not depend on it). -/
def DetectHTTPPort (info : ContainerInfo) : String :=
  if skipServices info.serviceLabel then ""
  else
    let ports := info.exposedPorts ++ info.boundPorts
    if ports.isEmpty then ""
    else
      match httpPorts.find? (fun p => ports.contains p) with
      | some p => p
      | none =>
        match ports.foldl lowestStep none with
        | some pn => pn.1
        | none => ""

example : DetectHTTPPort ⟨"", ["3000", "80"], []⟩ = "80" := by decide
example : DetectHTTPPort ⟨"", ["9000", "9999"], []⟩ = "9000" := by decide
example : DetectHTTPPort ⟨"postgres", ["80"], []⟩ = "" := by decide
example : DetectHTTPPort ⟨"", [], []⟩ = "" := by decide
example : DetectHTTPPort ⟨"", ["6379"], []⟩ = "" := by decide

/-! ### Port detector lemmas -/

theorem find?_append_first {α} (p : α → Bool) (l1 l2 : List α) (x : α)
    (h1 : ∀ y ∈ l1, p y = false) (hx : p x = true) :
    (l1 ++ x :: l2).find? p = some x := by
  induction l1 with
  | nil => simp [List.find?_cons, hx]
  | cons hd tl ih =>
    have hhd : p hd = false := h1 hd (List.mem_cons_self hd tl)
    simp only [List.cons_append, List.find?_cons, hhd]
    exact ih (fun y hy => h1 y (List.mem_cons_of_mem hd hy))

theorem lowestStep_of_skip {acc : Option (String × Nat)} {port : String}
    (hs : skipPorts port = true) : lowestStep acc port = acc := by
  unfold lowestStep
  rw [hs]
  simp

theorem lowestStep_of_noParse {acc : Option (String × Nat)} {port : String}
    (hs : skipPorts port = false) (ht : goAtoi port = none) :
    lowestStep acc port = acc := by
  unfold lowestStep
  rw [hs, ht]
  simp

theorem lowestStep_parse_none {port : String} {n : Nat}
    (hs : skipPorts port = false) (ht : goAtoi port = some n) :
    lowestStep none port = some (port, n) := by
  unfold lowestStep
  rw [hs, ht]
  rfl

theorem lowestStep_parse_some {pm : String × Nat} {port : String} {n : Nat}
    (hs : skipPorts port = false) (ht : goAtoi port = some n) :
    lowestStep (some pm) port =
      (if n < pm.2 then some (port, n) else some pm) := by
  unfold lowestStep
  rw [hs, ht]
  rfl

theorem lowestFold_none_acc {l : List String} :
    ∀ {acc : Option (String × Nat)}, l.foldl lowestStep acc = none →
      acc = none := by
  induction l with
  | nil => intro acc h; exact h
  | cons hd tl ih =>
    intro acc h
    rw [List.foldl_cons] at h
    have h2 := ih h
    cases hs : skipPorts hd
    · rcases ht : goAtoi hd with _ | n
      · rwa [lowestStep_of_noParse hs ht] at h2
      · rcases acc with _ | pm
        · rw [lowestStep_parse_none hs ht] at h2
        · rw [lowestStep_parse_some hs ht] at h2
          by_cases hlt : n < pm.2 <;> simp [hlt] at h2
    · rwa [lowestStep_of_skip hs] at h2

theorem lowestFold_none_all {l : List String}
    (h : l.foldl lowestStep none = none) :
    ∀ q ∈ l, skipPorts q = true ∨ goAtoi q = none := by
  induction l with
  | nil => intro q hq; simp at hq
  | cons hd tl ih =>
    intro q hq
    rw [List.foldl_cons] at h
    have hacc : lowestStep none hd = none := lowestFold_none_acc h
    have hrest : tl.foldl lowestStep none = none := by rwa [hacc] at h
    rcases List.mem_cons.mp hq with hEq | hMem
    · subst hEq
      cases hs : skipPorts q
      · rcases ht : goAtoi q with _ | n
        · exact Or.inr rfl
        · rw [lowestStep_parse_none hs ht] at hacc
          cases hacc
      · exact Or.inl rfl
    · exact ih hrest q hMem

theorem lowestFold_some_src {l : List String} :
    ∀ {acc pn}, l.foldl lowestStep acc = some pn →
      acc = some pn ∨
        (pn.1 ∈ l ∧ skipPorts pn.1 = false ∧ goAtoi pn.1 = some pn.2) := by
  induction l with
  | nil => intro acc pn h; exact Or.inl h
  | cons hd tl ih =>
    intro acc pn h
    rw [List.foldl_cons] at h
    rcases ih h with hacc | hmem
    · cases hs : skipPorts hd
      · rcases ht : goAtoi hd with _ | n
        · rw [lowestStep_of_noParse hs ht] at hacc
          exact Or.inl hacc
        · rcases acc with _ | pm
          · rw [lowestStep_parse_none hs ht] at hacc
            refine Or.inr ?_
            have hEq : (hd, n) = pn := by simpa using hacc
            subst hEq
            exact ⟨List.mem_cons_self hd tl, hs, ht⟩
          · rw [lowestStep_parse_some hs ht] at hacc
            by_cases hlt : n < pm.2
            · rw [if_pos hlt] at hacc
              refine Or.inr ?_
              have hEq : (hd, n) = pn := by simpa using hacc
              subst hEq
              exact ⟨List.mem_cons_self hd tl, hs, ht⟩
            · rw [if_neg hlt] at hacc
              exact Or.inl hacc
      · rw [lowestStep_of_skip hs] at hacc
        exact Or.inl hacc
    · exact Or.inr ⟨List.mem_cons_of_mem hd hmem.1, hmem.2⟩

theorem lowestFold_le_acc {l : List String} :
    ∀ {acc pn pm}, l.foldl lowestStep acc = some pn → acc = some pm →
      pn.2 ≤ pm.2 := by
  induction l with
  | nil =>
    intro acc pn pm h hacc
    rw [hacc] at h
    cases h
    exact le_refl _
  | cons hd tl ih =>
    intro acc pn pm h hacc
    subst hacc
    rw [List.foldl_cons] at h
    cases hs : skipPorts hd
    · rcases ht : goAtoi hd with _ | n
      · rw [lowestStep_of_noParse hs ht] at h
        exact ih h rfl
      · rw [lowestStep_parse_some hs ht] at h
        by_cases hlt : n < pm.2
        · rw [if_pos hlt] at h
          have := ih h rfl
          omega
        · rw [if_neg hlt] at h
          exact ih h rfl
    · rw [lowestStep_of_skip hs] at h
      exact ih h rfl

theorem lowestFold_min {l : List String} :
    ∀ {acc pn}, l.foldl lowestStep acc = some pn →
      ∀ q ∈ l, skipPorts q = false → ∀ m, goAtoi q = some m → pn.2 ≤ m := by
  induction l with
  | nil => intro acc pn h q hq; simp at hq
  | cons hd tl ih =>
    intro acc pn h q hq hqs m hm
    rw [List.foldl_cons] at h
    rcases List.mem_cons.mp hq with hEq | hMem
    · subst hEq
      rcases acc with _ | pm
      · rw [lowestStep_parse_none hqs hm] at h
        exact lowestFold_le_acc h rfl
      · rw [lowestStep_parse_some hqs hm] at h
        by_cases hlt : m < pm.2
        · rw [if_pos hlt] at h
          exact lowestFold_le_acc h rfl
        · rw [if_neg hlt] at h
          have := lowestFold_le_acc h rfl
          omega
    · exact ih h q hMem hqs m hm

/-- C4: DetectHTTPPort returns the empty string when the compose service
label is in the known non-HTTP service set or when the union of declared
exposed ports and runtime port bindings is empty; otherwise it returns the
first member of the priority list present in the union; otherwise a member
of the union outside the skip set whose numeric value is minimal among
all such members, the comparison being numeric. The inputs with port sets
3000 plus 80 and 9000 plus 9999 yield 80 and 9000 respectively. -/
theorem C4_detect_http_port :
    (∀ info : ContainerInfo, skipServices info.serviceLabel = true →
        DetectHTTPPort info = "")
  ∧ (∀ info : ContainerInfo, info.exposedPorts ++ info.boundPorts = [] →
        DetectHTTPPort info = "")
  ∧ (∀ info : ContainerInfo, ∀ l1 l2 p,
        skipServices info.serviceLabel = false →
        httpPorts = l1 ++ p :: l2 →
        (info.exposedPorts ++ info.boundPorts).contains p = true →
        (∀ q ∈ l1, (info.exposedPorts ++ info.boundPorts).contains q = false) →
        DetectHTTPPort info = p)
  ∧ (∀ info : ContainerInfo,
        skipServices info.serviceLabel = false →
        (∀ p ∈ httpPorts, (info.exposedPorts ++ info.boundPorts).contains p = false) →
        ∀ q ∈ info.exposedPorts ++ info.boundPorts,
          skipPorts q = false → ∀ m, goAtoi q = some m →
          (DetectHTTPPort info ∈ info.exposedPorts ++ info.boundPorts ∧
           skipPorts (DetectHTTPPort info) = false ∧
           ∃ n, goAtoi (DetectHTTPPort info) = some n ∧
             ∀ q2 ∈ info.exposedPorts ++ info.boundPorts,
               skipPorts q2 = false → ∀ m2, goAtoi q2 = some m2 → n ≤ m2))
  ∧ DetectHTTPPort ⟨"", ["3000", "80"], []⟩ = "80"
  ∧ DetectHTTPPort ⟨"", ["9000", "9999"], []⟩ = "9000" := by
  refine ⟨?_, ?_, ?_, ?_, by decide, by decide⟩
  · intro info hskip
    unfold DetectHTTPPort
    rw [hskip]
    rfl
  · intro info hempty
    unfold DetectHTTPPort
    cases hskip : skipServices info.serviceLabel
    · simp [hempty]
    · rfl
  · intro info l1 l2 p hskip hsplit hmem hbefore
    unfold DetectHTTPPort
    rw [hskip]
    have hne : (info.exposedPorts ++ info.boundPorts).isEmpty = false := by
      rcases hl : info.exposedPorts ++ info.boundPorts with _ | ⟨x, xs⟩
      · rw [hl] at hmem; simp [List.contains] at hmem
      · rfl
    have hfind : httpPorts.find?
        (fun q => (info.exposedPorts ++ info.boundPorts).contains q) = some p := by
      rw [hsplit]
      exact find?_append_first _ l1 l2 p hbefore hmem
    simp only [Bool.false_eq_true, if_false, hne, hfind]
  · intro info hskip hhttp q hq hqs m hm
    have hne : (info.exposedPorts ++ info.boundPorts).isEmpty = false := by
      rcases hl : info.exposedPorts ++ info.boundPorts with _ | ⟨x, xs⟩
      · rw [hl] at hq; simp at hq
      · rfl
    have hfind : httpPorts.find?
        (fun q => (info.exposedPorts ++ info.boundPorts).contains q) = none := by
      rw [List.find?_eq_none]
      intro x hx hc
      simp only [hhttp x hx] at hc
      cases hc
    have hfold : ∃ pn, (info.exposedPorts ++ info.boundPorts).foldl
        lowestStep none = some pn := by
      rcases hf : (info.exposedPorts ++ info.boundPorts).foldl lowestStep none with
        _ | pn
      · rcases lowestFold_none_all hf q hq with hbad | hbad
        · rw [hbad] at hqs; cases hqs
        · rw [hbad] at hm; cases hm
      · exact ⟨pn, rfl⟩
    rcases hfold with ⟨pn, hf⟩
    have hres : DetectHTTPPort info = pn.1 := by
      unfold DetectHTTPPort
      rw [hskip]
      simp only [Bool.false_eq_true, if_false, hne, hfind, hf]
    rcases lowestFold_some_src hf with hbad | ⟨hmem2, hs2, hp2⟩
    · cases hbad
    · rw [hres]
      exact ⟨hmem2, hs2, pn.2, hp2, fun q2 hq2 hq2s m2 hm2 =>
        lowestFold_min hf q2 hq2 hq2s m2 hm2⟩

/-- Witness for C4 at concrete inputs. -/
theorem C4_detect_http_port_witness :
    DetectHTTPPort ⟨"postgres", ["80"], []⟩ = "" :=
  C4_detect_http_port.1 ⟨"postgres", ["80"], []⟩ (by decide)

/-! ## Primary-service election (internal/adopt) -/

/-- Model of strings.Split with a single-character separator: splitting the
empty list gives one empty field, as in Go. -/
def splitCharList (sep : Char) : List Char → List (List Char)
  | [] => [[]]
  | c :: rest =>
    let r := splitCharList sep rest
    if c = sep then [] :: r
    else
      match r with
      | [] => [[c]]
      | g :: gs => (c :: g) :: gs

/-- extractImageBase from internal/adopt/detect.go: drop the registry
prefix, then drop the tag. -/
def extractImageBase (image : String) : String :=
  let name := (splitCharList '/' image.data).getLastD []
  String.mk ((splitCharList ':' name).headD [])

/-- Model of strings.Contains over the characters of the two strings. -/
def containsSub (s sub : String) : Bool :=
  s.data.tails.any (fun t => sub.data.isPrefixOf t)

example : extractImageBase "caddy:2-alpine" = "caddy" := by decide
example : extractImageBase "ghcr.io/foo/nginx:latest" = "nginx" := by decide
example : containsSub "caddy" "caddy" = true := by decide
example : containsSub "node" "caddy" = false := by decide

/-- ComposeService from internal/adopt/detect.go. -/
structure ComposeService where
  Name : String
  Image : String
  Ports : List String
  IsHTTP : Bool
  Port : String

/-- Model of the indexed range-loop search used by FindPrimaryService:
the first element satisfying the predicate, counted from the start index. -/
def scanIdx {α} (p : α → Bool) : Nat → List α → Option Nat
  | _, [] => none
  | i, x :: rest => if p x then some i else scanIdx p (i + 1) rest

/-- One outer loop of FindPrimaryService: for each key in order, search
the services in input order; first hit wins. -/
def findByKey {κ} (pred : κ → ComposeService → Bool) :
    List κ → List ComposeService → Option Nat
  | [], _ => none
  | k :: rest, svcs =>
    match scanIdx (pred k) 0 svcs with
    | some i => some i
    | none => findByKey pred rest svcs

def primaryImages : List String := ["caddy", "nginx", "httpd", "apache"]

def primaryNames : List String := ["web", "app", "caddy", "nginx"]

/-- Image-rule predicate of FindPrimaryService: the image base name
contains the candidate image name. -/
def imageMatch (img : String) (svc : ComposeService) : Bool :=
  containsSub (extractImageBase svc.Image) img

/-- Name-rule predicate of FindPrimaryService. -/
def nameMatch (nm : String) (svc : ComposeService) : Bool :=
  svc.Name == nm

/-- FindPrimaryService from internal/adopt/adopt.go: image rule, then
service-name rule, then the port-80 rule, then index 0. -/
def FindPrimaryService (services : List ComposeService) : Nat :=
  match findByKey imageMatch primaryImages services with
  | some i => i
  | none =>
    match findByKey nameMatch primaryNames services with
    | some i => i
    | none =>
      match scanIdx (fun svc => svc.Port == "80") 0 services with
      | some i => i
      | none => 0

example :
    FindPrimaryService
      [⟨"api", "node:18", [], true, "3000"⟩, ⟨"web", "caddy:2", [], true, "80"⟩]
      = 1 := by decide

example :
    FindPrimaryService
      [⟨"web", "node:18", [], true, "80"⟩, ⟨"api", "node:18", [], true, "3000"⟩]
      = 0 := by decide

/-! ### Election lemmas -/

theorem scanIdx_cons {α} (p : α → Bool) (i : Nat) (x : α) (l : List α) :
    scanIdx p i (x :: l) = if p x = true then some i else scanIdx p (i + 1) l :=
  rfl

theorem scanIdx_append_first {α} (p : α → Bool) (l1 l2 : List α) (x : α)
    (h1 : ∀ y ∈ l1, p y = false) (hx : p x = true) :
    ∀ i, scanIdx p i (l1 ++ x :: l2) = some (i + l1.length) := by
  induction l1 with
  | nil => intro i; simp [scanIdx_cons, hx]
  | cons hd tl ih =>
    intro i
    have hhd : p hd = false := h1 hd (List.mem_cons_self hd tl)
    rw [List.cons_append, scanIdx_cons, hhd]
    simp only [Bool.false_eq_true, if_false]
    rw [ih (fun y hy => h1 y (List.mem_cons_of_mem hd hy)) (i + 1)]
    congr 1
    simp only [List.length_cons]
    omega

theorem scanIdx_none {α} (p : α → Bool) (l : List α)
    (h : ∀ y ∈ l, p y = false) : ∀ i, scanIdx p i l = none := by
  induction l with
  | nil => intro i; rfl
  | cons hd tl ih =>
    intro i
    have hhd : p hd = false := h hd (List.mem_cons_self hd tl)
    rw [scanIdx_cons, hhd]
    simp only [Bool.false_eq_true, if_false]
    exact ih (fun y hy => h y (List.mem_cons_of_mem hd hy)) (i + 1)

theorem findByKey_cons {κ} (pred : κ → ComposeService → Bool)
    (k : κ) (rest : List κ) (svcs : List ComposeService) :
    findByKey pred (k :: rest) svcs =
      (match scanIdx (pred k) 0 svcs with
       | some i => some i
       | none => findByKey pred rest svcs) :=
  rfl

theorem findByKey_none {κ} (pred : κ → ComposeService → Bool)
    (keys : List κ) (svcs : List ComposeService)
    (h : ∀ k ∈ keys, ∀ s ∈ svcs, pred k s = false) :
    findByKey pred keys svcs = none := by
  induction keys with
  | nil => rfl
  | cons hd tl ih =>
    rw [findByKey_cons,
      scanIdx_none (pred hd) svcs (h hd (List.mem_cons_self hd tl)) 0]
    exact ih (fun k hk s hs => h k (List.mem_cons_of_mem hd hk) s hs)

theorem findByKey_first {κ} (pred : κ → ComposeService → Bool)
    (keys1 keys2 : List κ) (k : κ) (svcs1 svcs2 : List ComposeService)
    (svc : ComposeService)
    (hbefore : ∀ k0 ∈ keys1, ∀ s ∈ svcs1 ++ svc :: svcs2, pred k0 s = false)
    (hk : pred k svc = true)
    (hsvcs : ∀ s ∈ svcs1, pred k s = false) :
    findByKey pred (keys1 ++ k :: keys2) (svcs1 ++ svc :: svcs2) =
      some svcs1.length := by
  induction keys1 with
  | nil =>
    rw [List.nil_append, findByKey_cons,
      scanIdx_append_first (pred k) svcs1 svcs2 svc hsvcs hk 0]
    simp
  | cons hd tl ih =>
    rw [List.cons_append, findByKey_cons,
      scanIdx_none (pred hd) _ (hbefore hd (List.mem_cons_self hd tl)) 0]
    exact ih (fun k0 hk0 s hs => hbefore k0 (List.mem_cons_of_mem hd hk0) s hs)

/-- C5: primary election applies the first matching rule: (a) scanning the
image list caddy, nginx, httpd, apache in order and the services in input
order for each, the first service whose image base name contains the
candidate; (b) otherwise scanning web, app, caddy, nginx, the first service
whose name equals the candidate; (c) otherwise the first service with
detected port 80; (d) otherwise index 0.  A node service before a caddy
image elects the caddy image, and a service named web with port 80 beats
the port-80 rule for a later service. -/
theorem C5_primary_election :
    (∀ services imgs1 img imgs2 svcs1 svcs2, ∀ svc : ComposeService,
        primaryImages = imgs1 ++ img :: imgs2 →
        services = svcs1 ++ svc :: svcs2 →
        (∀ im ∈ imgs1, ∀ s ∈ services, imageMatch im s = false) →
        imageMatch img svc = true →
        (∀ s ∈ svcs1, imageMatch img s = false) →
        FindPrimaryService services = svcs1.length)
  ∧ (∀ services nms1 nm nms2 svcs1 svcs2, ∀ svc : ComposeService,
        (∀ im ∈ primaryImages, ∀ s ∈ services, imageMatch im s = false) →
        primaryNames = nms1 ++ nm :: nms2 →
        services = svcs1 ++ svc :: svcs2 →
        (∀ n0 ∈ nms1, ∀ s ∈ services, nameMatch n0 s = false) →
        nameMatch nm svc = true →
        (∀ s ∈ svcs1, nameMatch nm s = false) →
        FindPrimaryService services = svcs1.length)
  ∧ (∀ services svcs1 svcs2, ∀ svc : ComposeService,
        (∀ im ∈ primaryImages, ∀ s ∈ services, imageMatch im s = false) →
        (∀ n0 ∈ primaryNames, ∀ s ∈ services, nameMatch n0 s = false) →
        services = svcs1 ++ svc :: svcs2 →
        (svc.Port == "80") = true →
        (∀ s ∈ svcs1, (s.Port == "80") = false) →
        FindPrimaryService services = svcs1.length)
  ∧ (∀ services : List ComposeService,
        (∀ im ∈ primaryImages, ∀ s ∈ services, imageMatch im s = false) →
        (∀ n0 ∈ primaryNames, ∀ s ∈ services, nameMatch n0 s = false) →
        (∀ s ∈ services, (s.Port == "80") = false) →
        FindPrimaryService services = 0)
  ∧ FindPrimaryService
      [⟨"api", "node:18", [], true, "3000"⟩, ⟨"web", "caddy:2", [], true, "80"⟩]
      = 1
  ∧ FindPrimaryService
      [⟨"web", "node:18", [], true, "80"⟩, ⟨"api", "node:18", [], true, "3000"⟩]
      = 0 := by
  refine ⟨?_, ?_, ?_, ?_, by decide, by decide⟩
  · intro services imgs1 img imgs2 svcs1 svcs2 svc hImgs hSvcs hBefore hHit hFirst
    subst hSvcs
    have hA : findByKey imageMatch primaryImages (svcs1 ++ svc :: svcs2) =
        some svcs1.length := by
      rw [hImgs]
      exact findByKey_first imageMatch imgs1 imgs2 img svcs1 svcs2 svc
        hBefore hHit hFirst
    unfold FindPrimaryService
    rw [hA]
  · intro services nms1 nm nms2 svcs1 svcs2 svc hNoImg hNms hSvcs hBefore hHit hFirst
    subst hSvcs
    have hA : findByKey imageMatch primaryImages (svcs1 ++ svc :: svcs2) = none :=
      findByKey_none imageMatch primaryImages _ hNoImg
    have hB : findByKey nameMatch primaryNames (svcs1 ++ svc :: svcs2) =
        some svcs1.length := by
      rw [hNms]
      exact findByKey_first nameMatch nms1 nms2 nm svcs1 svcs2 svc
        hBefore hHit hFirst
    unfold FindPrimaryService
    rw [hA, hB]
  · intro services svcs1 svcs2 svc hNoImg hNoName hSvcs hHit hFirst
    subst hSvcs
    have hA : findByKey imageMatch primaryImages (svcs1 ++ svc :: svcs2) = none :=
      findByKey_none imageMatch primaryImages _ hNoImg
    have hB : findByKey nameMatch primaryNames (svcs1 ++ svc :: svcs2) = none :=
      findByKey_none nameMatch primaryNames _ hNoName
    have hC : scanIdx (fun s => s.Port == "80") 0 (svcs1 ++ svc :: svcs2) =
        some (0 + svcs1.length) :=
      scanIdx_append_first _ svcs1 svcs2 svc hFirst hHit 0
    unfold FindPrimaryService
    rw [hA, hB, hC]
    simp
  · intro services hNoImg hNoName hNoPort
    have hA : findByKey imageMatch primaryImages services = none :=
      findByKey_none imageMatch primaryImages _ hNoImg
    have hB : findByKey nameMatch primaryNames services = none :=
      findByKey_none nameMatch primaryNames _ hNoName
    have hC : scanIdx (fun s => s.Port == "80") 0 services = none :=
      scanIdx_none _ services hNoPort 0
    unfold FindPrimaryService
    rw [hA, hB, hC]

/-- Witness for C5: the caddy image in second position wins over the
first service even though no service name matches before it. -/
theorem C5_primary_election_witness :
    FindPrimaryService
      [⟨"api", "node:18", [], true, "3000"⟩, ⟨"web", "caddy:2", [], true, "80"⟩]
      = 1 :=
  C5_primary_election.1
    [⟨"api", "node:18", [], true, "3000"⟩, ⟨"web", "caddy:2", [], true, "80"⟩]
    [] "caddy" ["nginx", "httpd", "apache"]
    [⟨"api", "node:18", [], true, "3000"⟩] []
    ⟨"web", "caddy:2", [], true, "80"⟩
    rfl rfl (by intro im him s hs; cases him) (by decide) (by decide)

/-! ## Route table and Caddyfile renderer (internal/watcher/caddyfile.go)

The file internal/watcher/caddyfile.go (Route, ActiveRoutes,
GenerateCaddyfile, WriteCaddyfile) is not among the sources; only its
test file and callers are.  The definitions below are modelled from the
specification, constrained by that test file. -/

/-- Modelled from the spec: the Route record of the missing
internal/watcher/caddyfile.go, one active route per routed container. -/
structure Route where
  Hostname : String
  ContainerName : String
  Port : String
  Project : String := ""
  Service : String := ""
deriving DecidableEq

/-- Modelled from the spec: the ActiveRoutes concurrent map of the missing
internal/watcher/caddyfile.go, keyed by container identity; represented
as an insertion-ordered association list (the in-process mutex
serializes all operations, so the sequential model is faithful). -/
abbrev ActiveRoutes := List (String × Route)

/-- Modelled from the spec: NewActiveRoutes. -/
def ActiveRoutes.new : ActiveRoutes := []

/-- Modelled from the spec: ActiveRoutes.Add, insert or overwrite. -/
def ActiveRoutes.add (ar : ActiveRoutes) (id : String) (r : Route) : ActiveRoutes :=
  (List.filter (fun e => !(e.1 == id)) ar) ++ [(id, r)]

/-- Modelled from the spec: ActiveRoutes.Remove, missing id is a no-op. -/
def ActiveRoutes.remove (ar : ActiveRoutes) (id : String) : ActiveRoutes :=
  List.filter (fun e => !(e.1 == id)) ar

/-- Modelled from the spec: ActiveRoutes.Get. -/
def ActiveRoutes.get (ar : ActiveRoutes) (id : String) : Option Route :=
  (List.find? (fun e => e.1 == id) ar).map (fun e => e.2)

/-- Modelled from the spec: ActiveRoutes.Len. -/
def ActiveRoutes.len (ar : ActiveRoutes) : Nat := List.length ar

/-- Lexicographic order on character lists, the order of Go string
comparison restricted to ASCII hostnames. -/
def charListLe : List Char → List Char → Bool
  | [], _ => true
  | _ :: _, [] => false
  | a :: as, b :: bs =>
    if a < b then true
    else if b < a then false
    else charListLe as bs

/-- Lexicographic string comparison used by the hostname sort. -/
def hostLe (a b : String) : Bool := charListLe a.data b.data

/-- Insertion step of the stable sort by hostname used by the snapshot:
a route is placed before the first element whose hostname is not
smaller, so routes with equal hostnames keep their insertion order. -/
def insertByHostname (r : Route) : List Route → List Route
  | [] => [r]
  | x :: xs =>
    if hostLe r.Hostname x.Hostname then r :: x :: xs
    else x :: insertByHostname r xs

/-- Modelled from the spec: ActiveRoutes.All, the snapshot sorted by
hostname ascending, stable within one hostname. -/
def ActiveRoutes.all (ar : ActiveRoutes) : List Route :=
  (List.map (fun e => e.2) ar).foldr insertByHostname []

/-- Upstream address emitted for one route. -/
def upstreamOf (r : Route) : String := r.ContainerName ++ ":" ++ r.Port

/-- Space-joined upstream list. -/
def joinSpace : List String → String
  | [] => ""
  | [x] => x
  | x :: rest => x ++ " " ++ joinSpace rest

/-- Revalidation of every container name and port of a hostname group,
immediately before emission. -/
def validateRoutes : List Route → Except String Unit
  | [] => .ok ()
  | r :: rest =>
    match ValidateContainerName r.ContainerName with
    | .error e => .error e
    | .ok _ =>
      match ValidatePort r.Port with
      | .error e => .error e
      | .ok _ => validateRoutes rest

/-- First-occurrence deduplication, with an accumulator of names already
seen so that the recursion is structural. -/
def dedupFirstAux (seen : List String) : List String → List String
  | [] => []
  | h :: t =>
    if seen.contains h then dedupFirstAux seen t
    else h :: dedupFirstAux (h :: seen) t

/-- Distinct hostnames of the snapshot in snapshot order. -/
def dedupFirst (l : List String) : List String := dedupFirstAux [] l

/-- Modelled from the spec: one site block of the missing
GenerateCaddyfile: the hostname is validated, then every route sharing
the hostname is validated, then a single site block with the internal-TLS
directive and one reverse-proxy directive listing every upstream of the
hostname in snapshot order is emitted. -/
def siteBlock (snapshot : List Route) (h : String) : Except String String :=
  match ValidateHostname h with
  | .error e => .error e
  | .ok _ =>
    match validateRoutes (snapshot.filter (fun r => r.Hostname == h)) with
    | .error e => .error e
    | .ok _ =>
      .ok (h ++ " \x7b\n\ttls internal\n\treverse_proxy " ++
        joinSpace ((snapshot.filter (fun r => r.Hostname == h)).map upstreamOf) ++
        "\n\x7d\n\n")

/-- Site blocks for a list of hostnames, aborting on the first failure. -/
def renderBlocks (snapshot : List Route) : List String → Except String String
  | [] => .ok ""
  | h :: rest =>
    match siteBlock snapshot h with
    | .error e => .error e
    | .ok b =>
      match renderBlocks snapshot rest with
      | .error e => .error e
      | .ok r => .ok (b ++ r)

/-- Constant preamble enabling the internal CA and suppressing the
auto-install-trust behaviour. -/
def caddyfilePreamble : String :=
  "\x7b\n\tlocal_certs\n\tskip_install_trust\n\x7d\n\n"

/-- Modelled from the spec: GenerateCaddyfile of the missing
internal/watcher/caddyfile.go: preamble, then one site block per
distinct hostname of the sorted snapshot; any validation failure aborts
the render with that error. -/
def GenerateCaddyfile (ar : ActiveRoutes) : Except String String :=
  match renderBlocks (ActiveRoutes.all ar)
      (dedupFirst ((ActiveRoutes.all ar).map (fun r => r.Hostname))) with
  | .error e => .error e
  | .ok body => .ok (caddyfilePreamble ++ body)

/-- Modelled from the spec: WriteCaddyfile of the missing
internal/watcher/caddyfile.go.  The installed configuration file is the
explicit second argument and result; a render failure returns the error
and leaves the file untouched, success atomically replaces it. -/
def WriteCaddyfile (ar : ActiveRoutes) (installed : Option String) :
    Except String Unit × Option String :=
  match GenerateCaddyfile ar with
  | .error e => (.error e, installed)
  | .ok s => (.ok (), some s)

/-- Pattern-occurrence count: the number of positions of the text at
which the pattern starts. -/
def countSubstr (s pat : String) : Nat :=
  (s.data.tails.filter (fun t => pat.data.isPrefixOf t)).length

/-- Route-table snapshot of the duplicate-hostname scenario: three worker
replicas share one hostname. -/
def workerRoutes : ActiveRoutes :=
  ((ActiveRoutes.new.add "c1" ⟨"worker.localhost", "worker-1", "8000", "", ""⟩).add
    "c2" ⟨"worker.localhost", "worker-2", "8000", "", ""⟩).add
    "c3" ⟨"worker.localhost", "worker-3", "8000", "", ""⟩

example :
    GenerateCaddyfile workerRoutes =
      .ok ("\x7b\n\tlocal_certs\n\tskip_install_trust\n\x7d\n\n" ++
        "worker.localhost \x7b\n\ttls internal\n\treverse_proxy " ++
        "worker-1:8000 worker-2:8000 worker-3:8000\n\x7d\n\n") := by decide

example : GenerateCaddyfile ActiveRoutes.new = .ok caddyfilePreamble := by decide

example :
    (GenerateCaddyfile
      (ActiveRoutes.new.add "c1" ⟨"bad\x7bhost", "container-1", "80", "", ""⟩)).isOk
      = false := by decide

/-! ### Renderer lemmas -/

theorem mem_insertByHostname {x r : Route} {l : List Route} :
    x ∈ insertByHostname r l ↔ x = r ∨ x ∈ l := by
  induction l with
  | nil => simp [insertByHostname]
  | cons hd tl ih =>
    unfold insertByHostname
    by_cases hle : hostLe r.Hostname hd.Hostname = true
    · rw [if_pos hle]
      simp
    · rw [if_neg hle]
      simp only [List.mem_cons, ih]
      tauto

theorem mem_sortFold {x : Route} {l : List Route} :
    x ∈ l.foldr insertByHostname [] ↔ x ∈ l := by
  induction l with
  | nil => simp
  | cons hd tl ih =>
    simp only [List.foldr_cons, mem_insertByHostname, List.mem_cons, ih]

theorem mem_allRoutes {r : Route} {ar : ActiveRoutes}
    (h : r ∈ List.map (fun e => e.2) ar) : r ∈ ActiveRoutes.all ar :=
  mem_sortFold.mpr h

theorem mem_dedupFirstAux {x : String} :
    ∀ {l seen : List String},
      (x ∈ dedupFirstAux seen l ↔ (x ∈ l ∧ ¬ x ∈ seen)) := by
  intro l
  induction l with
  | nil => intro seen; simp [dedupFirstAux]
  | cons hd tl ih =>
    intro seen
    unfold dedupFirstAux
    by_cases hc : seen.contains hd = true
    · rw [if_pos hc]
      have hmem : hd ∈ seen := List.mem_of_elem_eq_true hc
      rw [ih]
      simp only [List.mem_cons]
      constructor
      · rintro ⟨hx, hns⟩; exact ⟨Or.inr hx, hns⟩
      · rintro ⟨hx | hx, hns⟩
        · subst hx; exact absurd hmem hns
        · exact ⟨hx, hns⟩
    · rw [if_neg hc]
      have hnm : ¬ hd ∈ seen := fun hm => hc (List.elem_eq_true_of_mem hm)
      simp only [List.mem_cons, ih]
      constructor
      · rintro (hx | ⟨hx, hns⟩)
        · subst hx; exact ⟨Or.inl rfl, hnm⟩
        · refine ⟨Or.inr hx, fun hs => hns (Or.inr hs)⟩
      · rintro ⟨hx | hx, hns⟩
        · subst hx; exact Or.inl rfl
        · by_cases hxh : x = hd
          · subst hxh; exact Or.inl rfl
          · exact Or.inr ⟨hx, fun hs => by
              rcases hs with h1 | h1
              · exact hxh h1
              · exact hns h1⟩

theorem mem_dedupFirst {x : String} {l : List String} :
    x ∈ dedupFirst l ↔ x ∈ l := by
  unfold dedupFirst
  rw [mem_dedupFirstAux]
  simp

theorem nodup_dedupFirstAux :
    ∀ {l seen : List String}, (dedupFirstAux seen l).Nodup := by
  intro l
  induction l with
  | nil => intro seen; simp [dedupFirstAux]
  | cons hd tl ih =>
    intro seen
    unfold dedupFirstAux
    by_cases hc : seen.contains hd = true
    · rw [if_pos hc]; exact ih
    · rw [if_neg hc]
      refine List.Nodup.cons ?_ ih
      intro hmem
      have := (mem_dedupFirstAux.mp hmem).2
      exact this (List.mem_cons_self hd seen)

theorem validateRoutes_ok_all {l : List Route}
    (h : validateRoutes l = .ok ()) :
    ∀ r ∈ l, ValidateContainerName r.ContainerName = .ok () ∧
      ValidatePort r.Port = .ok () := by
  induction l with
  | nil => intro r hr; simp at hr
  | cons hd tl ih =>
    intro r hr
    unfold validateRoutes at h
    rcases hc : ValidateContainerName hd.ContainerName with e | u
    · rw [hc] at h; cases h
    · rw [hc] at h
      rcases hp : ValidatePort hd.Port with e | u2
      · rw [hp] at h; cases h
      · rw [hp] at h
        rcases List.mem_cons.mp hr with hEq | hMem
        · subst hEq
          cases u; cases u2
          exact ⟨hc, hp⟩
        · exact ih h r hMem

theorem renderBlocks_ok_all {snapshot : List Route} :
    ∀ {hs : List String} {body : String},
      renderBlocks snapshot hs = .ok body →
      ∀ h ∈ hs, ∃ b, siteBlock snapshot h = .ok b := by
  intro hs
  induction hs with
  | nil => intro body _ h hh; simp at hh
  | cons hd tl ih =>
    intro body hr h hh
    unfold renderBlocks at hr
    rcases hb : siteBlock snapshot hd with e | b
    · rw [hb] at hr; cases hr
    · rw [hb] at hr
      rcases hrest : renderBlocks snapshot tl with e | r
      · rw [hrest] at hr; cases hr
      · rw [hrest] at hr
        rcases List.mem_cons.mp hh with hEq | hMem
        · subst hEq; exact ⟨b, hb⟩
        · exact ih hrest h hMem

theorem generate_ok_blocks {ar : ActiveRoutes} {body : String}
    (h : GenerateCaddyfile ar = .ok body) :
    ∃ blocks, renderBlocks (ActiveRoutes.all ar)
      (dedupFirst ((ActiveRoutes.all ar).map (fun r => r.Hostname))) =
        .ok blocks := by
  unfold GenerateCaddyfile at h
  rcases hr : renderBlocks (ActiveRoutes.all ar)
      (dedupFirst ((ActiveRoutes.all ar).map (fun r => r.Hostname))) with e | b
  · rw [hr] at h; cases h
  · exact ⟨b, hr⟩

/-- One route failing any validator makes its site block fail. -/
theorem siteBlock_error_of_invalid {snapshot : List Route} {r : Route}
    (hmem : r ∈ snapshot)
    (hinv : ValidateHostname r.Hostname ≠ .ok () ∨
      ValidateContainerName r.ContainerName ≠ .ok () ∨
      ValidatePort r.Port ≠ .ok ()) :
    ∀ b, siteBlock snapshot r.Hostname ≠ .ok b := by
  intro b hok
  unfold siteBlock at hok
  rcases hv : ValidateHostname r.Hostname with e | u
  · rw [hv] at hok; simp at hok
  · cases u
    rw [hv] at hok
    rcases hg : validateRoutes (snapshot.filter (fun x => x.Hostname == r.Hostname))
      with e | u2
    · rw [hg] at hok; simp at hok
    · cases u2
      have hrg : r ∈ snapshot.filter (fun x => x.Hostname == r.Hostname) := by
        rw [List.mem_filter]
        exact ⟨hmem, by simp⟩
      have := validateRoutes_ok_all hg r hrg
      rcases hinv with hbad | hbad | hbad
      · exact hbad hv
      · exact hbad this.1
      · exact hbad this.2

/-- C1: any route whose hostname, container name or port fails its
validator makes the render return a descriptive error, and WriteCaddyfile
leaves the installed configuration file unchanged; concrete instances
cover the invalid hostname, the non-numeric port, the container name
with a space, and an invalid upstream inside a coalesced hostname
group. -/
theorem C1_invalid_route_aborts_render :
    (∀ (ar : ActiveRoutes) (file : Option String),
      (∃ e ∈ ar, ValidateHostname (Route.Hostname e.2) ≠ .ok () ∨
          ValidateContainerName (Route.ContainerName e.2) ≠ .ok () ∨
          ValidatePort (Route.Port e.2) ≠ .ok ()) →
      ∃ msg, GenerateCaddyfile ar = .error msg ∧
        WriteCaddyfile ar file = (.error msg, file))
  ∧ (GenerateCaddyfile
      (ActiveRoutes.new.add "c1" ⟨"bad\x7bhost", "container-1", "80", "", ""⟩)).isOk
      = false
  ∧ (GenerateCaddyfile
      (ActiveRoutes.new.add "c1" ⟨"app.localhost", "container-1", "abc", "", ""⟩)).isOk
      = false
  ∧ (GenerateCaddyfile
      (ActiveRoutes.new.add "c1" ⟨"app.localhost", "bad container", "80", "", ""⟩)).isOk
      = false
  ∧ (GenerateCaddyfile
      ((ActiveRoutes.new.add "c1" ⟨"worker.localhost", "worker-1", "8000", "", ""⟩).add
        "c2" ⟨"worker.localhost", "bad container", "8000", "", ""⟩)).isOk
      = false := by
  refine ⟨?_, by decide, by decide, by decide, by decide⟩
  intro ar file hex
  rcases hex with ⟨e, he, hinv⟩
  have hmap : e.2 ∈ List.map (fun x => x.2) ar := List.mem_map_of_mem _ he
  have hsnap : e.2 ∈ ActiveRoutes.all ar := mem_allRoutes hmap
  have hh : (Route.Hostname e.2) ∈
      (ActiveRoutes.all ar).map (fun r => r.Hostname) :=
    List.mem_map_of_mem _ hsnap
  have hdd : (Route.Hostname e.2) ∈
      dedupFirst ((ActiveRoutes.all ar).map (fun r => r.Hostname)) :=
    mem_dedupFirst.mpr hh
  rcases hgen : GenerateCaddyfile ar with msg | body
  · refine ⟨msg, rfl, ?_⟩
    unfold WriteCaddyfile
    rw [hgen]
  · exfalso
    obtain ⟨blocks, hbl⟩ := generate_ok_blocks hgen
    obtain ⟨b, hb⟩ := renderBlocks_ok_all hbl _ hdd
    exact siteBlock_error_of_invalid hsnap hinv b hb

/-- Witness for C1: the invalid hostname aborts the render and leaves the
file state untouched. -/
theorem C1_invalid_route_aborts_render_witness :
    ∃ msg,
      GenerateCaddyfile
        (ActiveRoutes.new.add "c1" ⟨"bad\x7bhost", "container-1", "80", "", ""⟩)
        = .error msg ∧
      WriteCaddyfile
        (ActiveRoutes.new.add "c1" ⟨"bad\x7bhost", "container-1", "80", "", ""⟩)
        (some "old config") = (.error msg, some "old config") :=
  C1_invalid_route_aborts_render.1
    (ActiveRoutes.new.add "c1" ⟨"bad\x7bhost", "container-1", "80", "", ""⟩)
    (some "old config")
    ⟨("c1", ⟨"bad\x7bhost", "container-1", "80", "", ""⟩), by decide,
      Or.inl (by decide)⟩

/-- Rendered configuration of the three-replica scenario. -/
def workerRendered : String :=
  "\x7b\n\tlocal_certs\n\tskip_install_trust\n\x7d\n\n" ++
  "worker.localhost \x7b\n\ttls internal\n\treverse_proxy " ++
  "worker-1:8000 worker-2:8000 worker-3:8000\n\x7d\n\n"

/-- C3: distinct hostnames of the snapshot are rendered exactly once
each (the hostname list is duplicate-free and covers every snapshot
hostname), the one site block of a hostname lists every upstream sharing
it in snapshot order, and the three-replica scenario renders to a
configuration with exactly one site block for worker.localhost and
exactly one reverse-proxy directive naming the three upstreams in
insertion order. -/
theorem C3_duplicate_hostnames_coalesced :
    (∀ xs : List String, (dedupFirst xs).Nodup ∧ ∀ x, x ∈ dedupFirst xs ↔ x ∈ xs)
  ∧ (∀ (ar : ActiveRoutes) (body : String) (h : String),
      GenerateCaddyfile ar = .ok body →
      h ∈ dedupFirst ((ActiveRoutes.all ar).map (fun r => r.Hostname)) →
      siteBlock (ActiveRoutes.all ar) h =
        .ok (h ++ " \x7b\n\ttls internal\n\treverse_proxy " ++
          joinSpace (((ActiveRoutes.all ar).filter
            (fun r => r.Hostname == h)).map upstreamOf) ++
          "\n\x7d\n\n"))
  ∧ GenerateCaddyfile workerRoutes = .ok workerRendered
  ∧ countSubstr workerRendered "worker.localhost \x7b" = 1
  ∧ countSubstr workerRendered "reverse_proxy" = 1
  ∧ containsSub workerRendered
      "reverse_proxy worker-1:8000 worker-2:8000 worker-3:8000" = true := by
  refine ⟨fun xs => ⟨nodup_dedupFirstAux, fun x => mem_dedupFirst⟩, ?_,
    by decide, by decide, by decide, by decide⟩
  intro ar body h hgen hdd
  obtain ⟨blocks, hbl⟩ := generate_ok_blocks hgen
  obtain ⟨b, hb⟩ := renderBlocks_ok_all hbl _ hdd
  rcases hv : ValidateHostname h with e | u
  · exfalso
    unfold siteBlock at hb
    rw [hv] at hb
    simp at hb
  · cases u
    rcases hg : validateRoutes ((ActiveRoutes.all ar).filter
        (fun r => r.Hostname == h)) with e | u2
    · exfalso
      unfold siteBlock at hb
      rw [hv] at hb
      rw [hg] at hb
      simp at hb
    · cases u2
      unfold siteBlock
      rw [hv]
      show (match validateRoutes ((ActiveRoutes.all ar).filter
          (fun r : Route => r.Hostname == h)) with
        | Except.error e => Except.error e
        | Except.ok _ =>
          Except.ok (h ++ " \x7b\n\ttls internal\n\treverse_proxy " ++
            joinSpace (((ActiveRoutes.all ar).filter
              (fun r : Route => r.Hostname == h)).map upstreamOf) ++
            "\n\x7d\n\n")) = _
      rw [hg]

/-- Witness for C3: the coalesced block of the three-replica scenario. -/
theorem C3_duplicate_hostnames_coalesced_witness :
    siteBlock (ActiveRoutes.all workerRoutes) "worker.localhost" =
      .ok ("worker.localhost" ++ " \x7b\n\ttls internal\n\treverse_proxy " ++
        joinSpace (((ActiveRoutes.all workerRoutes).filter
          (fun r => r.Hostname == "worker.localhost")).map upstreamOf) ++
        "\n\x7d\n\n") :=
  C3_duplicate_hostnames_coalesced.2.1 workerRoutes workerRendered
    "worker.localhost" (by decide) (by decide)


/-! ## Project store (internal/config/config.go) -/

/-- ProjectConfig from internal/config/config.go. -/
structure ProjectConfig where
  Dir : String
  ComposeProject : String
  Hostname : String
  Services : List (String × String)
deriving DecidableEq

/-- The Projects map of the Config structure, as an association list with
Go map semantics for insert and delete. -/
abbrev Registry := List (String × ProjectConfig)

/-- Map lookup. -/
def regLookup (reg : Registry) (name : String) : Option ProjectConfig :=
  (reg.find? (fun e => e.1 == name)).map (fun e => e.2)

/-- Map assignment, overwriting an existing key. -/
def regInsert (reg : Registry) (name : String) (p : ProjectConfig) : Registry :=
  (reg.filter (fun e => !(e.1 == name))) ++ [(name, p)]

/-- Map deletion, a no-op for a missing key. -/
def regErase (reg : Registry) (name : String) : Registry :=
  reg.filter (fun e => !(e.1 == name))

/-- Load from internal/config/config.go: a missing registry file is
indistinguishable from an empty registry.  The on-disk file is modelled
as an Option Registry. -/
def loadConfig (disk : Option Registry) : Registry := disk.getD []

/-- LoadAndModify from internal/config/config.go, its functional core
under the exclusive lock: load the registry, run the caller mutation,
and either propagate its error without writing or save the mutated
registry atomically. -/
def LoadAndModify (disk : Option Registry)
    (fn : Registry → Except String Registry) :
    Except String Unit × Option Registry :=
  match fn (loadConfig disk) with
  | .error e => (.error e, disk)
  | .ok reg2 => (.ok (), some reg2)

/-- Mutation of Adopt from internal/adopt/adopt.go: upsert the record. -/
def adoptMutation (name : String) (p : ProjectConfig) (cfg : Registry) :
    Except String Registry :=
  .ok (regInsert cfg name p)

/-- Mutation of Unadopt from internal/adopt/adopt.go: a missing key is
an error, otherwise the record is deleted. -/
def unadoptMutation (name : String) (cfg : Registry) :
    Except String Registry :=
  match regLookup cfg name with
  | none => .error ("project " ++ name ++ " is not adopted")
  | some _ => .ok (regErase cfg name)

/-- C10: a caller mutation error is propagated by LoadAndModify and the
on-disk registry is not written; in particular Unadopt of a project name
not in the registry fails and leaves the registry identical. -/
theorem C10_failed_modify_leaves_registry :
    (∀ (disk : Option Registry) (fn : Registry → Except String Registry) e,
      fn (loadConfig disk) = .error e →
      LoadAndModify disk fn = (.error e, disk))
  ∧ (∀ (disk : Option Registry) (name : String),
      regLookup (loadConfig disk) name = none →
      LoadAndModify disk (unadoptMutation name) =
        (.error ("project " ++ name ++ " is not adopted"), disk)) := by
  constructor
  · intro disk fn e hfn
    unfold LoadAndModify
    rw [hfn]
  · intro disk name hmiss
    unfold LoadAndModify unadoptMutation
    rw [hmiss]

/-- Witness for C10: unadopting the project b from a registry holding
only the project a fails and leaves the registry unchanged. -/
theorem C10_failed_modify_leaves_registry_witness :
    LoadAndModify (some [("a", ⟨"/p/a", "a", "a.localhost", []⟩)])
      (unadoptMutation "b") =
      (.error ("project " ++ "b" ++ " is not adopted"),
        some [("a", ⟨"/p/a", "a", "a.localhost", []⟩)]) :=
  C10_failed_modify_leaves_registry.2
    (some [("a", ⟨"/p/a", "a", "a.localhost", []⟩)]) "b" (by decide)


/-! ### Registry map lemmas -/

theorem find?_append_none {α} (p : α → Bool) {l1 l2 : List α}
    (h : l1.find? p = none) : (l1 ++ l2).find? p = l2.find? p := by
  induction l1 with
  | nil => simp
  | cons hd tl ih =>
    cases hp : p hd
    · rw [List.find?_cons, hp] at h
      rw [List.cons_append, List.find?_cons, hp]
      exact ih h
    · rw [List.find?_cons, hp] at h
      cases h

theorem find?_append_some {α} (p : α → Bool) {l1 l2 : List α} {x : α}
    (h : l1.find? p = some x) : (l1 ++ l2).find? p = some x := by
  induction l1 with
  | nil => cases h
  | cons hd tl ih =>
    cases hp : p hd
    · rw [List.find?_cons, hp] at h
      rw [List.cons_append, List.find?_cons, hp]
      exact ih h
    · rw [List.find?_cons, hp] at h
      rw [List.cons_append, List.find?_cons, hp]
      exact h

theorem find?_filter_of_imp {α} (p q : α → Bool) (l : List α)
    (himp : ∀ x, p x = true → q x = true) :
    (l.filter q).find? p = l.find? p := by
  induction l with
  | nil => rfl
  | cons hd tl ih =>
    cases hq : q hd
    · have hp : p hd = false := by
        cases hp2 : p hd
        · rfl
        · rw [himp hd hp2] at hq; cases hq
      rw [List.filter_cons, hq]
      simp only [Bool.false_eq_true, if_false]
      rw [List.find?_cons, hp]
      exact ih
    · rw [List.filter_cons, hq]
      simp only [if_true]
      rw [List.find?_cons, List.find?_cons]
      cases hp : p hd
      · exact ih
      · rfl

theorem regLookup_insert_self (reg : Registry) (a : String) (p : ProjectConfig) :
    regLookup (regInsert reg a p) a = some p := by
  unfold regLookup regInsert
  have hnone : (reg.filter (fun e => !(e.1 == a))).find?
      (fun e => e.1 == a) = none := by
    rw [List.find?_eq_none]
    intro x hx hbeq
    have hfl := (List.mem_filter.mp hx).2
    rw [hbeq] at hfl
    simp at hfl
  rw [find?_append_none _ hnone]
  simp

theorem regLookup_insert_other {a b : String} (h : ¬ b = a)
    (reg : Registry) (p : ProjectConfig) :
    regLookup (regInsert reg a p) b = regLookup reg b := by
  unfold regLookup regInsert
  have hfil : (reg.filter (fun e => !(e.1 == a))).find? (fun e => e.1 == b) =
      reg.find? (fun e => e.1 == b) := by
    apply find?_filter_of_imp
    intro x hx
    have hxb : x.1 = b := eq_of_beq hx
    rw [hxb]
    have hba : (b == a) = false := beq_eq_false_iff_ne.mpr h
    rw [hba]
    rfl
  rcases hr : reg.find? (fun e => e.1 == b) with _ | x
  · rw [find?_append_none _ (hfil.trans hr), hr]
    have hab : ((a, p).1 == b) = false :=
      beq_eq_false_iff_ne.mpr (fun hx => h hx.symm)
    rw [List.find?_cons, hab]
    simp
  · rw [find?_append_some _ (hfil.trans hr), hr]

theorem regLookup_erase_self (reg : Registry) (b : String) :
    regLookup (regErase reg b) b = none := by
  unfold regLookup regErase
  have hnone : (reg.filter (fun e => !(e.1 == b))).find?
      (fun e => e.1 == b) = none := by
    rw [List.find?_eq_none]
    intro x hx hbeq
    have hfl := (List.mem_filter.mp hx).2
    rw [hbeq] at hfl
    simp at hfl
  rw [hnone]
  rfl

theorem regLookup_erase_other {a b : String} (h : ¬ a = b) (reg : Registry) :
    regLookup (regErase reg b) a = regLookup reg a := by
  unfold regLookup regErase
  have hfil : (reg.filter (fun e => !(e.1 == b))).find? (fun e => e.1 == a) =
      reg.find? (fun e => e.1 == a) := by
    apply find?_filter_of_imp
    intro x hx
    have hxa : x.1 = a := eq_of_beq hx
    rw [hxa]
    have hab : (a == b) = false := beq_eq_false_iff_ne.mpr h
    rw [hab]
    rfl
  rw [hfil]

/-! ## Cross-process serialization of the registry store (C9)

The advisory flock in LoadAndModify is modelled by a small interleaving
semantics: two processes each run the acquire-load-modify-save-release
critical section of LoadAndModify.  The lock admits one holder; the
save and the release form one atomic step, which is faithful because
the competing process is blocked on the lock and cannot observe the
file in between. -/

/-- Program counter of one process running LoadAndModify. -/
inductive PState where
  | idle
  | locked
  | loaded (localReg : Registry)
  | done (res : Except String Unit)
deriving DecidableEq

/-- Two-process system state: the advisory lock owner, the registry
file, and each process's control state. -/
structure Sys where
  lockHeld : Option Bool
  disk : Option Registry
  proc : Bool → PState

/-- Disk contents after one LoadAndModify with mutation fn runs alone on
disk d: unchanged on a mutation error, the saved registry otherwise. -/
def effectOf (fn : Registry → Except String Registry) (d : Option Registry) :
    Option Registry :=
  match fn (loadConfig d) with
  | .error _ => d
  | .ok r => some r

/-- Result returned by that LoadAndModify run. -/
def resultOf (fn : Registry → Except String Registry) (d : Option Registry) :
    Except String Unit :=
  match fn (loadConfig d) with
  | .error e => .error e
  | .ok _ => .ok ()

/-- Interleaving semantics of the two critical sections. -/
inductive Step (fns : Bool → Registry → Except String Registry) :
    Sys → Sys → Prop where
  | acquire (s : Sys) (i : Bool) :
      s.proc i = .idle → s.lockHeld = none →
      Step fns s ⟨some i, s.disk, fun j => if j = i then .locked else s.proc j⟩
  | load (s : Sys) (i : Bool) :
      s.proc i = .locked → s.lockHeld = some i →
      Step fns s ⟨s.lockHeld, s.disk,
        fun j => if j = i then .loaded (loadConfig s.disk) else s.proc j⟩
  | commitErr (s : Sys) (i : Bool) (localReg : Registry) (e : String) :
      s.proc i = .loaded localReg → s.lockHeld = some i →
      fns i localReg = .error e →
      Step fns s ⟨none, s.disk,
        fun j => if j = i then .done (.error e) else s.proc j⟩
  | commitOk (s : Sys) (i : Bool) (localReg r2 : Registry) :
      s.proc i = .loaded localReg → s.lockHeld = some i →
      fns i localReg = .ok r2 →
      Step fns s ⟨none, some r2,
        fun j => if j = i then .done (.ok ()) else s.proc j⟩

/-- Reflexive-transitive closure of Step. -/
inductive Reach (fns : Bool → Registry → Except String Registry) :
    Sys → Sys → Prop where
  | refl (s : Sys) : Reach fns s s
  | tail {s t u : Sys} : Reach fns s t → Step fns t u → Reach fns s u

/-- Initial state: lock free, both processes before their critical
section, the registry file as given. -/
def initSys (d0 : Option Registry) : Sys :=
  ⟨none, d0, fun _ => .idle⟩

/-- Inductive invariant: either the lock is free and zero, one, or two
critical sections have completed in some order, or one process is inside
its critical section and the other is untouched or already complete. -/
def Inv (fns : Bool → Registry → Except String Registry)
    (d0 : Option Registry) (s : Sys) : Prop :=
  (s.lockHeld = none ∧
    ((∀ j, s.proc j = .idle) ∧ s.disk = d0
     ∨ (∃ i, s.proc i = .done (resultOf (fns i) d0) ∧ s.proc (!i) = .idle ∧
         s.disk = effectOf (fns i) d0)
     ∨ (∃ i, s.proc i = .done (resultOf (fns i) d0) ∧
         s.proc (!i) = .done (resultOf (fns (!i)) (effectOf (fns i) d0)) ∧
         s.disk = effectOf (fns (!i)) (effectOf (fns i) d0))))
  ∨ (∃ i, s.lockHeld = some i ∧
      (s.proc i = .locked ∨ s.proc i = .loaded (loadConfig s.disk)) ∧
      ((s.proc (!i) = .idle ∧ s.disk = d0) ∨
       (s.proc (!i) = .done (resultOf (fns (!i)) d0) ∧
        s.disk = effectOf (fns (!i)) d0)))

theorem resultOf_error {fn : Registry → Except String Registry}
    {d : Option Registry} {e : String} (h : fn (loadConfig d) = .error e) :
    resultOf fn d = .error e := by
  unfold resultOf
  rw [h]

theorem resultOf_ok {fn : Registry → Except String Registry}
    {d : Option Registry} {r : Registry} (h : fn (loadConfig d) = .ok r) :
    resultOf fn d = .ok () := by
  unfold resultOf
  rw [h]

theorem effectOf_error {fn : Registry → Except String Registry}
    {d : Option Registry} {e : String} (h : fn (loadConfig d) = .error e) :
    effectOf fn d = d := by
  unfold effectOf
  rw [h]

theorem effectOf_ok {fn : Registry → Except String Registry}
    {d : Option Registry} {r : Registry} (h : fn (loadConfig d) = .ok r) :
    effectOf fn d = some r := by
  unfold effectOf
  rw [h]

theorem not_bnot_eq (i : Bool) : ¬ ((!i) = i) := by cases i <;> decide

theorem bool_eq_not {i j : Bool} (h : ¬ i = j) : i = !j := by
  cases i <;> cases j <;> simp_all

theorem proc_upd_self (f : Bool → PState) (i : Bool) (x : PState) :
    (fun j => if j = i then x else f j) i = x := by simp

theorem proc_upd_other (f : Bool → PState) (i : Bool) (x : PState) :
    (fun j => if j = i then x else f j) (!i) = f (!i) := by
  simp [not_bnot_eq i]

theorem inv_init (fns : Bool → Registry → Except String Registry)
    (d0 : Option Registry) : Inv fns d0 (initSys d0) :=
  Or.inl ⟨rfl, Or.inl ⟨fun _ => rfl, rfl⟩⟩

theorem inv_preserved {fns : Bool → Registry → Except String Registry}
    {d0 : Option Registry} {s t : Sys}
    (hinv : Inv fns d0 s) (hstep : Step fns s t) : Inv fns d0 t := by
  cases hstep with
  | acquire i hidle hnone =>
    rcases hinv with ⟨hlock, hcase⟩ | ⟨i0, hlock0, hpc0, hother0⟩
    · unfold Inv
      dsimp only
      refine Or.inr ⟨i, rfl, Or.inl (if_pos rfl), ?_⟩
      rw [if_neg (not_bnot_eq i)]
      rcases hcase with ⟨hall, hdisk⟩ | ⟨i0, hdone, hidle0, hdisk⟩ |
        ⟨i0, hd1, hd2, hdisk⟩
      · exact Or.inl ⟨hall (!i), hdisk⟩
      · have hne : ¬ i = i0 := by
          intro hEq
          rw [hEq, hdone] at hidle
          exact PState.noConfusion hidle
        have hi0 : i0 = !i := by
          rw [bool_eq_not hne, Bool.not_not]
        rw [← hi0]
        exact Or.inr ⟨hdone, hdisk⟩
      · exfalso
        by_cases hEq : i = i0
        · rw [hEq, hd1] at hidle
          exact PState.noConfusion hidle
        · have hi : i = !i0 := bool_eq_not hEq
          rw [hi, hd2] at hidle
          exact PState.noConfusion hidle
    · rw [hlock0] at hnone
      exact Option.noConfusion hnone
  | load i hlocked hlockeq =>
    rcases hinv with ⟨hlock, hcase⟩ | ⟨i0, hlock0, hpc0, hother0⟩
    · rw [hlock] at hlockeq
      exact Option.noConfusion hlockeq
    · have hii : i0 = i := by
        rw [hlockeq] at hlock0
        exact (Option.some.inj hlock0).symm
      subst hii
      unfold Inv
      dsimp only
      refine Or.inr ⟨i0, hlockeq, Or.inr (if_pos rfl), ?_⟩
      rw [if_neg (not_bnot_eq i0)]
      exact hother0
  | commitErr i localReg e hloaded hlockeq hfns =>
    rcases hinv with ⟨hlock, hcase⟩ | ⟨i0, hlock0, hpc0, hother0⟩
    · rw [hlock] at hlockeq
      exact Option.noConfusion hlockeq
    · have hii : i0 = i := by
        rw [hlockeq] at hlock0
        exact (Option.some.inj hlock0).symm
      subst hii
      have hlr : localReg = loadConfig s.disk := by
        rcases hpc0 with hp | hp
        · rw [hloaded] at hp
          exact PState.noConfusion hp
        · rw [hloaded] at hp
          exact (PState.loaded.inj hp.symm).symm
      subst hlr
      unfold Inv
      dsimp only
      rcases hother0 with ⟨hidle0, hdisk⟩ | ⟨hdone0, hdisk⟩
      · subst hdisk
        refine Or.inl ⟨rfl, Or.inr (Or.inl ⟨i0, ?_, ?_, ?_⟩)⟩
        · rw [if_pos rfl, resultOf_error hfns]
        · rw [if_neg (not_bnot_eq i0)]
          exact hidle0
        · rw [effectOf_error hfns]
      · refine Or.inl ⟨rfl, Or.inr (Or.inr ⟨!i0, ?_, ?_, ?_⟩)⟩
        · rw [if_neg (not_bnot_eq i0)]
          exact hdone0
        · rw [Bool.not_not, if_pos rfl]
          rw [hdisk] at hfns
          rw [resultOf_error hfns]
        · rw [Bool.not_not]
          rw [hdisk] at hfns
          rw [hdisk]
          rw [effectOf_error hfns]
  | commitOk i localReg r2 hloaded hlockeq hfns =>
    rcases hinv with ⟨hlock, hcase⟩ | ⟨i0, hlock0, hpc0, hother0⟩
    · rw [hlock] at hlockeq
      exact Option.noConfusion hlockeq
    · have hii : i0 = i := by
        rw [hlockeq] at hlock0
        exact (Option.some.inj hlock0).symm
      subst hii
      have hlr : localReg = loadConfig s.disk := by
        rcases hpc0 with hp | hp
        · rw [hloaded] at hp
          exact PState.noConfusion hp
        · rw [hloaded] at hp
          exact (PState.loaded.inj hp.symm).symm
      subst hlr
      unfold Inv
      dsimp only
      rcases hother0 with ⟨hidle0, hdisk⟩ | ⟨hdone0, hdisk⟩
      · subst hdisk
        refine Or.inl ⟨rfl, Or.inr (Or.inl ⟨i0, ?_, ?_, ?_⟩)⟩
        · rw [if_pos rfl, resultOf_ok hfns]
        · rw [if_neg (not_bnot_eq i0)]
          exact hidle0
        · rw [effectOf_ok hfns]
      · refine Or.inl ⟨rfl, Or.inr (Or.inr ⟨!i0, ?_, ?_, ?_⟩)⟩
        · rw [if_neg (not_bnot_eq i0)]
          exact hdone0
        · rw [Bool.not_not, if_pos rfl]
          rw [hdisk] at hfns
          rw [resultOf_ok hfns]
        · rw [Bool.not_not]
          rw [hdisk] at hfns
          rw [effectOf_ok hfns]

theorem reach_inv {fns : Bool → Registry → Except String Registry}
    {d0 : Option Registry} {s : Sys}
    (h : Reach fns (initSys d0) s) : Inv fns d0 s := by
  induction h with
  | refl => exact inv_init fns d0
  | tail hreach hstep ih => exact inv_preserved ih hstep

theorem both_done_serialized {fns : Bool → Registry → Except String Registry}
    {d0 : Option Registry} {s : Sys} {r0 r1 : Except String Unit}
    (h : Reach fns (initSys d0) s)
    (h0 : s.proc false = .done r0) (h1 : s.proc true = .done r1) :
    ∃ i : Bool, s.proc i = .done (resultOf (fns i) d0) ∧
      s.proc (!i) = .done (resultOf (fns (!i)) (effectOf (fns i) d0)) ∧
      s.disk = effectOf (fns (!i)) (effectOf (fns i) d0) := by
  have hdone : ∀ j : Bool, ∃ r, s.proc j = .done r := by
    intro j
    cases j
    · exact ⟨r0, h0⟩
    · exact ⟨r1, h1⟩
  rcases reach_inv h with ⟨hlock, hcase⟩ | ⟨i0, hlock0, hpc0, hother0⟩
  · rcases hcase with ⟨hall, hdisk⟩ | ⟨i0, hd, hidle, hdisk⟩ |
      ⟨i0, hd1, hd2, hdisk⟩
    · obtain ⟨r, hr⟩ := hdone false
      rw [hall false] at hr
      exact PState.noConfusion hr
    · obtain ⟨r, hr⟩ := hdone (!i0)
      rw [hidle] at hr
      exact PState.noConfusion hr
    · exact ⟨i0, hd1, hd2, hdisk⟩
  · obtain ⟨r, hr⟩ := hdone i0
    rcases hpc0 with hp | hp <;> rw [hp] at hr <;> exact PState.noConfusion hr

/-- C9: under the exclusive advisory lock held around the whole
load-modify-write, any interleaving of two concurrent critical sections
serializes: when both processes have completed, the registry file equals
the two mutations applied in one of the two orders; for an Adopt and an
Unadopt of distinct project names both effects survive in the final
registry (no lost update). -/
theorem C9_registry_serialized_no_lost_update :
    (∀ (fns : Bool → Registry → Except String Registry) (d0 : Option Registry)
        (s : Sys) (r0 r1 : Except String Unit),
      Reach fns (initSys d0) s →
      s.proc false = .done r0 → s.proc true = .done r1 →
      ∃ i : Bool, s.proc i = .done (resultOf (fns i) d0) ∧
        s.proc (!i) = .done (resultOf (fns (!i)) (effectOf (fns i) d0)) ∧
        s.disk = effectOf (fns (!i)) (effectOf (fns i) d0))
  ∧ (∀ (d0 : Option Registry) (a : String) (p : ProjectConfig) (b : String)
        (pb : ProjectConfig) (s : Sys) (ra rb : Except String Unit),
      ¬ a = b →
      regLookup (loadConfig d0) b = some pb →
      Reach (fun i => if i then unadoptMutation b else adoptMutation a p)
        (initSys d0) s →
      s.proc false = .done ra → s.proc true = .done rb →
      regLookup (loadConfig s.disk) a = some p ∧
      regLookup (loadConfig s.disk) b = none) := by
  constructor
  · intro fns d0 s r0 r1 hreach h0 h1
    exact both_done_serialized hreach h0 h1
  · intro d0 a p b pb s ra rb hab hb hreach h0 h1
    obtain ⟨i, _, _, hdisk⟩ := both_done_serialized hreach h0 h1
    cases i
    · -- adopt ran first
      have he1 : effectOf (if false = true then unadoptMutation b
            else adoptMutation a p) d0 =
          some (regInsert (loadConfig d0) a p) := rfl
      rw [he1] at hdisk
      have hlook : regLookup (regInsert (loadConfig d0) a p) b = some pb := by
        rw [regLookup_insert_other (fun hx => hab hx.symm)]
        exact hb
      have he2 : effectOf (if (!false) = true then unadoptMutation b
            else adoptMutation a p) (some (regInsert (loadConfig d0) a p)) =
          some (regErase (regInsert (loadConfig d0) a p) b) := by
        apply effectOf_ok
        show unadoptMutation b (regInsert (loadConfig d0) a p) = _
        unfold unadoptMutation
        rw [hlook]
      rw [he2] at hdisk
      rw [hdisk]
      constructor
      · show regLookup (regErase (regInsert (loadConfig d0) a p) b) a = some p
        rw [regLookup_erase_other hab]
        exact regLookup_insert_self _ a p
      · show regLookup (regErase (regInsert (loadConfig d0) a p) b) b = none
        exact regLookup_erase_self _ b
    · -- unadopt ran first
      have he1 : effectOf (if true = true then unadoptMutation b
            else adoptMutation a p) d0 = some (regErase (loadConfig d0) b) := by
        apply effectOf_ok
        show unadoptMutation b (loadConfig d0) = _
        unfold unadoptMutation
        rw [hb]
      rw [he1] at hdisk
      have he2 : effectOf (if (!true) = true then unadoptMutation b
            else adoptMutation a p) (some (regErase (loadConfig d0) b)) =
          some (regInsert (regErase (loadConfig d0) b) a p) := rfl
      rw [he2] at hdisk
      rw [hdisk]
      constructor
      · show regLookup (regInsert (regErase (loadConfig d0) b) a p) a = some p
        exact regLookup_insert_self _ a p
      · show regLookup (regInsert (regErase (loadConfig d0) b) a p) b = none
        rw [regLookup_insert_other (fun hx => hab hx.symm)]
        exact regLookup_erase_self _ b

/-- Registry record of the adopted project a used by the C9 witness. -/
def recw : ProjectConfig := ⟨"/p/a", "a", "a.localhost", [("web", "a.localhost")]⟩

/-- Registry record of the project b initially present in the C9 witness. -/
def pbw : ProjectConfig := ⟨"/p/b", "b", "b.localhost", [("web", "b.localhost")]⟩

/-- Mutations of the C9 witness: process false adopts a, process true
unadopts b. -/
def fnsw : Bool → Registry → Except String Registry :=
  fun i => if i then unadoptMutation "b" else adoptMutation "a" recw

/-- Initial registry file of the C9 witness. -/
def d0w : Option Registry := some [("b", pbw)]

/-- Witness for C9: a concrete execution in which the adopt of project a
and the unadopt of project b both complete, reached from the initial
registry holding only b; the final registry holds a and not b. -/
theorem C9_registry_serialized_no_lost_update_witness :
    ∃ s : Sys, Reach fnsw (initSys d0w) s ∧
      regLookup (loadConfig s.disk) "a" = some recw ∧
      regLookup (loadConfig s.disk) "b" = none := by
  have htr :=
    Reach.tail (Reach.tail (Reach.tail (Reach.tail (Reach.tail (Reach.tail
      (Reach.refl (initSys d0w) : Reach fnsw (initSys d0w) (initSys d0w))
      (Step.acquire (initSys d0w) false rfl rfl))
      (Step.load _ false rfl rfl))
      (Step.commitOk _ false (loadConfig d0w)
        (regInsert (loadConfig d0w) "a" recw) rfl rfl rfl))
      (Step.acquire _ true rfl rfl))
      (Step.load _ true rfl rfl))
      (Step.commitOk _ true (regInsert (loadConfig d0w) "a" recw)
        (regErase (regInsert (loadConfig d0w) "a" recw) "b") rfl rfl rfl)
  exact ⟨_, htr,
    C9_registry_serialized_no_lost_update.2 d0w "a" recw "b" pbw _
      (.ok ()) (.ok ()) (by decide) (by decide) htr rfl rfl⟩

/-! ## Compose port-stripping (internal/start/strip.go)

StripPorts round-trips the manifest through the yaml.v3 Node API:
unmarshal, delete the ports key of every service not in the keep-set,
marshal.  The yaml library is modelled for the block-style fragment the
manifests use: nested mappings with plain scalar values, sequences of
scalar items, empty flow collections; the serializer uses the library's
default four-space indent, while the parser accepts any consistent
sibling indentation.  A mapping is encoded as a chain of mcons cells so
that every recursion is structural. -/

/-- YAML node: plain scalar, sequence of scalar items, or mapping
encoded as a cons chain (mnil / mcons). -/
inductive YNode where
  | scalar (v : String)
  | seq (items : List String)
  | mnil
  | mcons (key : String) (val : YNode) (rest : YNode)
deriving DecidableEq

/-- Mapping-kind test, the Kind == MappingNode check of the Go code. -/
def isMapNode : YNode → Bool
  | .mnil => true
  | .mcons _ _ _ => true
  | _ => false

def spaces (n : Nat) : List Char := List.replicate n ' '

/-- Leading-space count of a line. -/
def indentOf (l : List Char) : Nat := (l.takeWhile (fun c => c = ' ')).length

/-- Line content after the indentation. -/
def contentOf (l : List Char) : List Char := l.dropWhile (fun c => c = ' ')

/-- Split a line at the first colon-space separator. -/
def splitColonSpace : List Char → Option (List Char × List Char)
  | [] => none
  | [_] => none
  | c :: d :: rest =>
    if c = ':' && d = ' ' then some ([], rest)
    else (splitColonSpace (d :: rest)).map (fun kv => (c :: kv.1, kv.2))

/-- Lines of a sequence block: every line at the same indent, each a
dash-space item. -/
def parseSeqItems (j : Nat) : List (List Char) → Option (List String)
  | [] => some []
  | l :: rest =>
    if indentOf l = j && (contentOf l).take 2 = ['-', ' '] then
      (parseSeqItems j rest).map (fun its => String.mk ((contentOf l).drop 2) :: its)
    else
      none

/-- Block-mapping parser with explicit fuel (one unit per line suffices);
the expected sibling indent is i, deeper lines form the child block of
the preceding block key. -/
def parseEntriesF : Nat → Nat → List (List Char) → Option YNode
  | 0, _, _ => none
  | _ + 1, _, [] => some .mnil
  | fuel + 1, i, l :: rest =>
    if indentOf l ≠ i then none
    else
      let c := contentOf l
      if c.take 2 = ['-', ' '] then none
      else
        match splitColonSpace c with
        | some kv =>
          if kv.1.isEmpty then none
          else if kv.1.contains ':' then none
          else if !(rest.takeWhile (fun l2 => i < indentOf l2)).isEmpty then none
          else
            let node :=
              if kv.2 = ['\x7b', '\x7d'] then YNode.mnil
              else if kv.2 = ['[', ']'] then YNode.seq []
              else YNode.scalar (String.mk kv.2)
            match parseEntriesF fuel i rest with
            | some m => some (.mcons (String.mk kv.1) node m)
            | none => none
        | none =>
          match c.getLast? with
          | some ':' =>
            let k := c.dropLast
            if k.isEmpty then none
            else if k.contains ':' then none
            else
              match rest.takeWhile (fun l2 => i < indentOf l2) with
              | [] => none
              | cl :: cls =>
                let j := indentOf cl
                let childNode :=
                  if (contentOf cl).take 2 = ['-', ' '] then
                    (parseSeqItems j (cl :: cls)).map YNode.seq
                  else
                    parseEntriesF fuel j (cl :: cls)
                match childNode with
                | none => none
                | some cn =>
                  match parseEntriesF fuel i
                      (rest.dropWhile (fun l2 => i < indentOf l2)) with
                  | some m => some (.mcons (String.mk k) cn m)
                  | none => none
          | _ => none

/-- Non-blank lines of the document. -/
def docLines (s : String) : List (List Char) :=
  (splitCharList '\n' s.data).filter (fun l => !(contentOf l).isEmpty)

/-- Document parser: blank input is an empty (scalar) document, a leading
dash-space line is a sequence root, a key line starts a mapping root,
and a single plain line is a scalar root. -/
def parseDoc (s : String) : Option YNode :=
  match docLines s with
  | [] => some (.scalar "")
  | l :: rest =>
    if (contentOf l).take 2 = ['-', ' '] then
      (parseSeqItems (indentOf l) (l :: rest)).map YNode.seq
    else
      match parseEntriesF ((l :: rest).length + 1) (indentOf l) (l :: rest) with
      | some m => some m
      | none =>
        match rest with
        | [] => some (.scalar (String.mk (contentOf l)))
        | _ => none

/-- Serializer for a mapping chain at indent i, in the yaml.v3 default
style: four-space nesting, inline empty collections. -/
def printY (i : Nat) : YNode → List (List Char)
  | .mcons k v r =>
    (match v with
     | .scalar sv => [spaces i ++ k.data ++ ':' :: ' ' :: sv.data]
     | .seq [] => [spaces i ++ k.data ++ (": []").data]
     | .seq (x :: xs) =>
       (spaces i ++ k.data ++ [':']) ::
         (x :: xs).map (fun it => spaces (i + 4) ++ '-' :: ' ' :: it.data)
     | .mnil => [spaces i ++ k.data ++ (": \x7b\x7d").data]
     | .mcons k2 v2 r2 =>
       (spaces i ++ k.data ++ [':']) :: printY (i + 4) (.mcons k2 v2 r2)) ++
    printY i r
  | _ => []

/-- Newline-terminated byte output. -/
def joinLines : List (List Char) → List Char
  | [] => []
  | l :: ls => l ++ '\n' :: joinLines ls

/-- Serialized document of a mapping root. -/
def printDoc (root : YNode) : String := String.mk (joinLines (printY 0 root))

/-- stripPortsFromService from internal/start/strip.go: drop every
ports key of the service mapping. -/
def stripSvcEntries : YNode → YNode
  | .mcons k v r =>
    if k == "ports" then stripSvcEntries r
    else .mcons k v (stripSvcEntries r)
  | other => other

/-- Per-service loop of StripPorts: services in the keep-set are left
alone, non-mapping services pass through (stripSvcEntries is the
identity on them), mapping services lose their ports keys. -/
def stripServices (keep : List String) : YNode → YNode
  | .mcons name sv r =>
    .mcons name (if keep.contains name then sv else stripSvcEntries sv)
      (stripServices keep r)
  | other => other

/-- Root loop of StripPorts: the value of every top-level services key
is rewritten (stripServices is the identity on non-mapping values,
matching the MappingNode guard of the Go code). -/
def stripRoot (keep : List String) : YNode → YNode
  | .mcons k v r =>
    .mcons k (if k == "services" then stripServices keep v else v)
      (stripRoot keep r)
  | other => other

/-- StripPorts from internal/start/strip.go: parse, strip, re-serialize;
parse failures are errors, non-mapping roots return the input bytes. -/
def StripPorts (data : String) (keepPorts : List String) : Except String String :=
  match parseDoc data with
  | none => .error "parsing YAML"
  | some root =>
    match root with
    | .mcons k v r => .ok (printDoc (stripRoot keepPorts (.mcons k v r)))
    | _ => .ok data

example :
    parseDoc "volumes:\n  data:\n    driver: local\n" =
      some (.mcons "volumes" (.mcons "data"
        (.mcons "driver" (.scalar "local") .mnil) .mnil) .mnil) := by decide

example :
    StripPorts "volumes:\n  data:\n    driver: local\n" [] =
      .ok "volumes:\n    data:\n        driver: local\n" := by decide

example :
    StripPorts "services:\n  web:\n    image: nginx\n    ports:\n      - \"80:80\"\n    expose:\n      - \"80\"\n" [] =
      .ok "services:\n    web:\n        image: nginx\n        expose:\n            - \"80\"\n" := by decide

example : StripPorts "just a scalar\n" [] = .ok "just a scalar\n" := by decide

example : StripPorts "- a\n- b\n" [] = .ok "- a\n- b\n" := by decide

example : StripPorts "" [] = .ok "" := by decide

/-! ### Well-formedness of YAML trees -/

/-- Keys that serialize to lines the parser reads back: non-empty, no
newline, no colon, no leading space, not starting dash-space. -/
def WFkey (k : String) : Bool :=
  match k.data with
  | [] => false
  | c :: _ =>
    !(c = ' ') && !(k.data.contains ':') && !(k.data.contains '\n') &&
      !(k.data.take 2 = ['-', ' '])

/-- Trees that serialize to documents the parser reads back: scalars and
items without newlines, scalars distinct from the inline empty
collections, keys well-formed, map tails again maps. -/
def WFval : YNode → Bool
  | .scalar v => !(v.data.contains '\n') && !(v = "\x7b\x7d") && !(v = "[]")
  | .seq items => items.all (fun it => !(it.data.contains '\n'))
  | .mnil => true
  | .mcons k v r => WFkey k && WFval v && WFval r && isMapNode r

/-! ### Line and character lemmas -/

theorem splitCharList_ne_nil (sep : Char) (cs : List Char) :
    splitCharList sep cs ≠ [] := by
  cases cs with
  | nil => simp [splitCharList]
  | cons c rest =>
    unfold splitCharList
    by_cases hc : c = sep
    · simp [hc]
    · simp only [hc]
      rcases hr : splitCharList sep rest with _ | ⟨g, gs⟩
      · simp
      · simp

theorem mem_splitCharList_not_sep (sep : Char) :
    ∀ (cs : List Char) (seg : List Char), seg ∈ splitCharList sep cs →
      ¬ seg.contains sep = true := by
  intro cs
  induction cs with
  | nil =>
    intro seg hseg
    unfold splitCharList at hseg
    simp at hseg
    subst hseg
    simp [List.contains]
  | cons c rest ih =>
    intro seg hseg
    unfold splitCharList at hseg
    by_cases hc : c = sep
    · rw [if_pos hc] at hseg
      rcases List.mem_cons.mp hseg with hEq | hMem
      · subst hEq; simp [List.contains]
      · exact ih seg hMem
    · rw [if_neg hc] at hseg
      rcases hr : splitCharList sep rest with _ | ⟨g, gs⟩
      · exact absurd hr (splitCharList_ne_nil sep rest)
      · rw [hr] at hseg
        have hseg2 : seg ∈ (c :: g) :: gs := hseg
        have hg : ¬ g.contains sep = true :=
          ih g (by rw [hr]; exact List.mem_cons_self g gs)
        rcases List.mem_cons.mp hseg2 with hEq | hMem
        · subst hEq
          intro hcon
          simp only [List.contains_cons, Bool.or_eq_true] at hcon
          rcases hcon with h1 | h1
          · exact hc (eq_of_beq h1).symm
          · exact hg h1
        · exact ih seg (by rw [hr]; exact List.mem_cons_of_mem g hMem)

theorem splitCharList_append_left (sep : Char) :
    ∀ (l cs : List Char), ¬ l.contains sep = true →
      ∃ g gs, splitCharList sep cs = g :: gs ∧
        splitCharList sep (l ++ cs) = (l ++ g) :: gs := by
  intro l
  induction l with
  | nil =>
    intro cs _
    rcases hr : splitCharList sep cs with _ | ⟨g, gs⟩
    · exact absurd hr (splitCharList_ne_nil sep cs)
    · exact ⟨g, gs, rfl, by simpa using hr⟩
  | cons c t ih =>
    intro cs hl
    have hc : ¬ c = sep := by
      intro hEq
      apply hl
      simp only [List.contains_cons, Bool.or_eq_true]
      exact Or.inl (by rw [hEq]; exact beq_self_eq_true sep)
    have ht : ¬ t.contains sep = true := by
      intro hcon
      apply hl
      simp only [List.contains_cons, Bool.or_eq_true]
      exact Or.inr hcon
    obtain ⟨g, gs, hcs, happ⟩ := ih cs ht
    refine ⟨g, gs, hcs, ?_⟩
    show splitCharList sep (c :: (t ++ cs)) = (c :: (t ++ g)) :: gs
    unfold splitCharList
    rw [if_neg hc, happ]

theorem splitCharList_cons_sep (sep : Char) (cs : List Char) :
    splitCharList sep (sep :: cs) = [] :: splitCharList sep cs := by
  conv_lhs => unfold splitCharList
  rw [if_pos rfl]

theorem splitCharList_joinLines :
    ∀ (ls : List (List Char)),
      (∀ l ∈ ls, ¬ l.contains '\n' = true) →
      splitCharList '\n' (joinLines ls) = ls ++ [[]] := by
  intro ls
  induction ls with
  | nil => intro _; rfl
  | cons l t ih =>
    intro h
    show splitCharList '\n' (l ++ '\n' :: joinLines t) = (l :: t) ++ [[]]
    obtain ⟨g, gs, hcs, happ⟩ :=
      splitCharList_append_left '\n' l ('\n' :: joinLines t)
        (h l (List.mem_cons_self l t))
    rw [splitCharList_cons_sep,
      ih (fun x hx => h x (List.mem_cons_of_mem l hx))] at hcs
    cases hcs
    rw [happ]
    simp

theorem contentOf_cons_space (l : List Char) :
    contentOf (' ' :: l) = contentOf l := by
  unfold contentOf
  rw [List.dropWhile_cons]
  simp

theorem contentOf_cons_not_space {c : Char} (h : ¬ c = ' ') (l : List Char) :
    contentOf (c :: l) = c :: l := by
  unfold contentOf
  rw [List.dropWhile_cons]
  simp [h]

theorem contentOf_spaces_append (i : Nat) (c : List Char) :
    contentOf (spaces i ++ c) = contentOf c := by
  induction i with
  | zero => simp [spaces]
  | succ n ih =>
    show contentOf (' ' :: (spaces n ++ c)) = contentOf c
    rw [contentOf_cons_space]
    exact ih

theorem indentOf_cons_space (l : List Char) :
    indentOf (' ' :: l) = indentOf l + 1 := by
  unfold indentOf
  rw [List.takeWhile_cons]
  simp

theorem indentOf_cons_not_space {c : Char} (h : ¬ c = ' ') (l : List Char) :
    indentOf (c :: l) = 0 := by
  unfold indentOf
  rw [List.takeWhile_cons]
  simp [h]

theorem indentOf_spaces_append (i : Nat) (c : List Char) :
    indentOf (spaces i ++ c) = i + indentOf c := by
  induction i with
  | zero => simp [spaces]
  | succ n ih =>
    show indentOf (' ' :: (spaces n ++ c)) = n + 1 + indentOf c
    rw [indentOf_cons_space, ih]
    omega

/-! ### Strip-transform lemmas -/

/-- Entry list of a mapping chain. -/
def toEntries : YNode → List (String × YNode)
  | .mcons k v r => (k, v) :: toEntries r
  | _ => []

theorem stripSvcEntries_mcons (k : String) (v r : YNode) :
    stripSvcEntries (.mcons k v r) =
      if (k == "ports") = true then stripSvcEntries r
      else .mcons k v (stripSvcEntries r) := rfl

theorem stripServices_mcons (keep : List String) (n : String) (sv r : YNode) :
    stripServices keep (.mcons n sv r) =
      .mcons n (if keep.contains n then sv else stripSvcEntries sv)
        (stripServices keep r) := rfl

theorem stripRoot_mcons (keep : List String) (k : String) (v r : YNode) :
    stripRoot keep (.mcons k v r) =
      .mcons k (if k == "services" then stripServices keep v else v)
        (stripRoot keep r) := rfl

theorem wfval_mcons {k : String} {v r : YNode}
    (h : WFval (.mcons k v r) = true) :
    WFkey k = true ∧ WFval v = true ∧ WFval r = true ∧ isMapNode r = true := by
  unfold WFval at h
  simp only [Bool.and_eq_true] at h
  exact ⟨h.1.1.1, h.1.1.2, h.1.2, h.2⟩

theorem wfval_mcons_intro {k : String} {v r : YNode}
    (h1 : WFkey k = true) (h2 : WFval v = true) (h3 : WFval r = true)
    (h4 : isMapNode r = true) : WFval (.mcons k v r) = true := by
  unfold WFval
  simp only [Bool.and_eq_true]
  exact ⟨⟨⟨h1, h2⟩, h3⟩, h4⟩

theorem stripSvcEntries_isMap : ∀ {v : YNode}, WFval v = true →
    isMapNode v = true → isMapNode (stripSvcEntries v) = true := by
  intro v
  induction v with
  | scalar v => intro _ hm; cases hm
  | seq items => intro _ hm; cases hm
  | mnil => intro _ _; rfl
  | mcons k val rest ihv ihr =>
    intro hw _
    obtain ⟨_, _, hwr, hmr⟩ := wfval_mcons hw
    rw [stripSvcEntries_mcons]
    by_cases hk : (k == "ports") = true
    · rw [if_pos hk]
      exact ihr hwr hmr
    · rw [if_neg hk]
      rfl

theorem stripSvcEntries_wf : ∀ {v : YNode}, WFval v = true →
    WFval (stripSvcEntries v) = true := by
  intro v
  induction v with
  | scalar v => intro hw; exact hw
  | seq items => intro hw; exact hw
  | mnil => intro hw; exact hw
  | mcons k val rest ihv ihr =>
    intro hw
    obtain ⟨hwk, hwv, hwr, hmr⟩ := wfval_mcons hw
    rw [stripSvcEntries_mcons]
    by_cases hk : (k == "ports") = true
    · rw [if_pos hk]
      exact ihr hwr
    · rw [if_neg hk]
      exact wfval_mcons_intro hwk hwv (ihr hwr) (stripSvcEntries_isMap hwr hmr)

theorem stripSvcEntries_idem : ∀ (v : YNode),
    stripSvcEntries (stripSvcEntries v) = stripSvcEntries v := by
  intro v
  induction v with
  | scalar v => rfl
  | seq items => rfl
  | mnil => rfl
  | mcons k val rest ihv ihr =>
    rw [stripSvcEntries_mcons]
    by_cases hk : (k == "ports") = true
    · rw [if_pos hk]
      exact ihr
    · rw [if_neg hk, stripSvcEntries_mcons, if_neg hk, ihr]

theorem stripServices_isMap {keep : List String} : ∀ {v : YNode},
    isMapNode v = true → isMapNode (stripServices keep v) = true := by
  intro v hm
  cases v with
  | mnil => rfl
  | mcons k val rest => rfl
  | scalar v => cases hm
  | seq items => cases hm

theorem stripServices_wf {keep : List String} : ∀ {v : YNode},
    WFval v = true → WFval (stripServices keep v) = true := by
  intro v
  induction v with
  | scalar v => intro hw; exact hw
  | seq items => intro hw; exact hw
  | mnil => intro hw; exact hw
  | mcons name sv rest ihv ihr =>
    intro hw
    obtain ⟨hwk, hwv, hwr, hmr⟩ := wfval_mcons hw
    rw [stripServices_mcons]
    refine wfval_mcons_intro hwk ?_ (ihr hwr) (stripServices_isMap hmr)
    by_cases hk : keep.contains name = true
    · rw [if_pos hk]
      exact hwv
    · rw [if_neg hk]
      exact stripSvcEntries_wf hwv

theorem stripServices_idem {keep : List String} : ∀ (v : YNode),
    stripServices keep (stripServices keep v) = stripServices keep v := by
  intro v
  induction v with
  | scalar v => rfl
  | seq items => rfl
  | mnil => rfl
  | mcons name sv rest ihv ihr =>
    rw [stripServices_mcons, stripServices_mcons, ihr]
    by_cases hk : keep.contains name = true
    · rw [if_pos hk, if_pos hk]
    · rw [if_neg hk, if_neg hk, stripSvcEntries_idem]

theorem stripRoot_isMap {keep : List String} : ∀ {v : YNode},
    isMapNode v = true → isMapNode (stripRoot keep v) = true := by
  intro v hm
  cases v with
  | mnil => rfl
  | mcons k val rest => rfl
  | scalar v => cases hm
  | seq items => cases hm

theorem stripRoot_wf {keep : List String} : ∀ {v : YNode},
    WFval v = true → WFval (stripRoot keep v) = true := by
  intro v
  induction v with
  | scalar v => intro hw; exact hw
  | seq items => intro hw; exact hw
  | mnil => intro hw; exact hw
  | mcons k val rest ihv ihr =>
    intro hw
    obtain ⟨hwk, hwv, hwr, hmr⟩ := wfval_mcons hw
    rw [stripRoot_mcons]
    refine wfval_mcons_intro hwk ?_ (ihr hwr) (stripRoot_isMap hmr)
    by_cases hk : (k == "services") = true
    · rw [if_pos hk]
      exact stripServices_wf hwv
    · rw [if_neg hk]
      exact hwv

theorem stripRoot_idem {keep : List String} : ∀ (v : YNode),
    stripRoot keep (stripRoot keep v) = stripRoot keep v := by
  intro v
  induction v with
  | scalar v => rfl
  | seq items => rfl
  | mnil => rfl
  | mcons k val rest ihv ihr =>
    rw [stripRoot_mcons, stripRoot_mcons, ihr]
    by_cases hk : (k == "services") = true
    · rw [if_pos hk, if_pos hk, stripServices_idem]
    · rw [if_neg hk, if_neg hk]

theorem stripRoot_id_of_no_services {keep : List String} : ∀ {v : YNode},
    (∀ e ∈ toEntries v, ¬ e.1 = "services") → stripRoot keep v = v := by
  intro v
  induction v with
  | scalar v => intro _; rfl
  | seq items => intro _; rfl
  | mnil => intro _; rfl
  | mcons k val rest ihv ihr =>
    intro h
    have hk : ¬ (k == "services") = true := by
      intro hbeq
      exact h (k, val) (by unfold toEntries; exact List.mem_cons_self _ _)
        (eq_of_beq hbeq)
    unfold stripRoot
    rw [if_neg hk, ihr]
    intro e he
    exact h e (by unfold toEntries; exact List.mem_cons_of_mem _ he)

theorem mem_toEntries_stripSvcEntries : ∀ {sv : YNode} {a : String} {b : YNode},
    (a, b) ∈ toEntries sv → ¬ a = "ports" →
    (a, b) ∈ toEntries (stripSvcEntries sv) := by
  intro sv
  induction sv with
  | scalar v => intro a b h _; exact h
  | seq items => intro a b h _; exact h
  | mnil => intro a b h _; exact h
  | mcons k val rest ihv ihr =>
    intro a b h ha
    have h2 : (a, b) = (k, val) ∨ (a, b) ∈ toEntries rest :=
      List.mem_cons.mp h
    unfold stripSvcEntries
    by_cases hk : (k == "ports") = true
    · rw [if_pos hk]
      rcases h2 with hEq | hMem
      · exfalso
        apply ha
        rw [show a = k from congrArg Prod.fst hEq]
        exact eq_of_beq hk
      · exact ihr hMem ha
    · rw [if_neg hk]
      rcases h2 with hEq | hMem
      · rw [hEq]
        exact List.mem_cons_self _ _
      · exact List.mem_cons_of_mem _ (ihr hMem ha)

theorem mem_toEntries_stripRoot {keep : List String} :
    ∀ {root : YNode} {k : String} {v : YNode},
    (k, v) ∈ toEntries root → ¬ k = "services" →
    (k, v) ∈ toEntries (stripRoot keep root) := by
  intro root
  induction root with
  | scalar s => intro k v h _; exact h
  | seq items => intro k v h _; exact h
  | mnil => intro k v h _; exact h
  | mcons k0 val rest ihv ihr =>
    intro k v h hk
    have h2 : (k, v) = (k0, val) ∨ (k, v) ∈ toEntries rest :=
      List.mem_cons.mp h
    show (k, v) ∈ toEntries (.mcons k0
      (if k0 == "services" then stripServices keep val else val)
      (stripRoot keep rest))
    rcases h2 with hEq | hMem
    · have hk0 : ¬ (k0 == "services") = true := by
        intro hbeq
        apply hk
        rw [show k = k0 from congrArg Prod.fst hEq]
        exact eq_of_beq hbeq
      rw [if_neg hk0, hEq]
      exact List.mem_cons_self _ _
    · exact List.mem_cons_of_mem _ (ihr hMem hk)

theorem mem_toEntries_stripServices {keep : List String} :
    ∀ {svcs : YNode} {name : String} {sv : YNode},
    (name, sv) ∈ toEntries svcs →
    (name, if keep.contains name then sv else stripSvcEntries sv) ∈
      toEntries (stripServices keep svcs) := by
  intro svcs
  induction svcs with
  | scalar s => intro name sv h; cases h
  | seq items => intro name sv h; cases h
  | mnil => intro name sv h; cases h
  | mcons n0 sv0 rest ihv ihr =>
    intro name sv h
    have h2 : (name, sv) = (n0, sv0) ∨ (name, sv) ∈ toEntries rest :=
      List.mem_cons.mp h
    show _ ∈ toEntries (.mcons n0
      (if keep.contains n0 then sv0 else stripSvcEntries sv0)
      (stripServices keep rest))
    rcases h2 with hEq | hMem
    · have hn : name = n0 := congrArg Prod.fst hEq
      have hv : sv = sv0 := congrArg Prod.snd hEq
      subst hn
      subst hv
      exact List.mem_cons_self _ _
    · exact List.mem_cons_of_mem _ (ihr hMem)

/-! ### Printer shape lemmas -/

theorem printY_mcons_scalar (i : Nat) (k : String) (sv : String) (r : YNode) :
    printY i (.mcons k (.scalar sv) r) =
      (spaces i ++ k.data ++ ':' :: ' ' :: sv.data) :: printY i r := rfl

theorem printY_mcons_seqnil (i : Nat) (k : String) (r : YNode) :
    printY i (.mcons k (.seq []) r) =
      (spaces i ++ k.data ++ ':' :: ' ' :: ['[', ']']) :: printY i r := rfl

theorem printY_mcons_mnil (i : Nat) (k : String) (r : YNode) :
    printY i (.mcons k .mnil r) =
      (spaces i ++ k.data ++ ':' :: ' ' :: ['\x7b', '\x7d']) :: printY i r := rfl

theorem printY_mcons_seq (i : Nat) (k : String) (x : String) (xs : List String)
    (r : YNode) :
    printY i (.mcons k (.seq (x :: xs)) r) =
      (spaces i ++ k.data ++ [':']) ::
        ((x :: xs).map (fun it => spaces (i + 4) ++ '-' :: ' ' :: it.data) ++
          printY i r) := rfl

theorem printY_mcons_map (i : Nat) (k k2 : String) (v2 r2 r : YNode) :
    printY i (.mcons k (.mcons k2 v2 r2) r) =
      (spaces i ++ k.data ++ [':']) ::
        (printY (i + 4) (.mcons k2 v2 r2) ++ printY i r) := rfl

theorem wfkey_head {k : String} (hw : WFkey k = true) :
    ∃ c t, k.data = c :: t ∧ ¬ c = ' ' := by
  unfold WFkey at hw
  rcases hk : k.data with _ | ⟨c, t⟩
  · rw [hk] at hw; cases hw
  · rw [hk] at hw
    simp only [Bool.and_eq_true] at hw
    refine ⟨c, t, rfl, ?_⟩
    intro hEq
    rw [hEq] at hw
    simp at hw

theorem contentOf_keyline {k : String} (hw : WFkey k = true) (i : Nat)
    (t : List Char) :
    contentOf (spaces i ++ k.data ++ t) = k.data ++ t := by
  obtain ⟨c, ct, hk, hc⟩ := wfkey_head hw
  rw [List.append_assoc, contentOf_spaces_append, hk, List.cons_append,
    contentOf_cons_not_space hc]

theorem indentOf_keyline {k : String} (hw : WFkey k = true) (i : Nat)
    (t : List Char) :
    indentOf (spaces i ++ k.data ++ t) = i := by
  obtain ⟨c, ct, hk, hc⟩ := wfkey_head hw
  rw [List.append_assoc, indentOf_spaces_append, hk, List.cons_append,
    indentOf_cons_not_space hc]
  omega

theorem contentOf_itemline (j : Nat) (t : List Char) :
    contentOf (spaces j ++ '-' :: t) = '-' :: t := by
  rw [contentOf_spaces_append]
  exact contentOf_cons_not_space (by decide) t

theorem indentOf_itemline (j : Nat) (t : List Char) :
    indentOf (spaces j ++ '-' :: t) = j := by
  rw [indentOf_spaces_append, indentOf_cons_not_space (by decide)]
  omega

theorem key_colon_take_two {k : String} (hw : WFkey k = true) (t : List Char) :
    ¬ ((k.data ++ ':' :: t).take 2 = ['-', ' ']) := by
  unfold WFkey at hw
  rcases hk : k.data with _ | ⟨c, ct⟩
  · rw [hk] at hw; cases hw
  · rw [hk] at hw
    simp only [Bool.and_eq_true] at hw
    have htk := hw.2
    cases ct with
    | nil =>
      intro hEq
      have hEq2 : ([c, ':'] : List Char) = ['-', ' '] := hEq
      have h2 := (List.cons.inj hEq2).2
      have h3 := (List.cons.inj h2).1
      exact absurd h3 (by decide)
    | cons c2 ct2 =>
      intro hEq
      have hEq2 : ([c, c2] : List Char) = ['-', ' '] := hEq
      have hc1 := (List.cons.inj hEq2).1
      have hc2 := (List.cons.inj (List.cons.inj hEq2).2).1
      simp only [Bool.not_eq_true', decide_eq_false_iff_not] at htk
      exact htk (by rw [hc1, hc2]; rfl)

theorem printY_indent_ge : ∀ (v : YNode) (i : Nat) (l : List Char),
    l ∈ printY i v → i ≤ indentOf l := by
  intro v
  induction v with
  | scalar s => intro i l h; cases h
  | seq items => intro i l h; cases h
  | mnil => intro i l h; cases h
  | mcons k val r ihv ihr =>
    intro i l h
    cases val with
    | scalar sv =>
      rw [printY_mcons_scalar] at h
      rcases List.mem_cons.mp h with hEq | hMem
      · subst hEq
        rw [List.append_assoc, indentOf_spaces_append]
        omega
      · exact ihr i l hMem
    | seq items =>
      cases items with
      | nil =>
        rw [printY_mcons_seqnil] at h
        rcases List.mem_cons.mp h with hEq | hMem
        · subst hEq
          rw [List.append_assoc, indentOf_spaces_append]
          omega
        · exact ihr i l hMem
      | cons x xs =>
        rw [printY_mcons_seq] at h
        rcases List.mem_cons.mp h with hEq | hMem
        · subst hEq
          rw [List.append_assoc, indentOf_spaces_append]
          omega
        · rcases List.mem_append.mp hMem with hItem | hRest
          · obtain ⟨it, _, hit⟩ := List.mem_map.mp hItem
            subst hit
            rw [indentOf_itemline]
            omega
          · exact ihr i l hRest
    | mnil =>
      rw [printY_mcons_mnil] at h
      rcases List.mem_cons.mp h with hEq | hMem
      · subst hEq
        rw [List.append_assoc, indentOf_spaces_append]
        omega
      · exact ihr i l hMem
    | mcons k2 v2 r2 =>
      rw [printY_mcons_map] at h
      rcases List.mem_cons.mp h with hEq | hMem
      · subst hEq
        rw [List.append_assoc, indentOf_spaces_append]
        omega
      · rcases List.mem_append.mp hMem with hChild | hRest
        · have := ihv (i + 4) l hChild
          omega
        · exact ihr i l hRest

/-! ### Parser-side lemmas -/

theorem splitColonSpace_key {k : List Char} (hk : ¬ ':' ∈ k)
    (rest : List Char) :
    splitColonSpace (k ++ ':' :: ' ' :: rest) = some (k, rest) := by
  induction k with
  | nil => simp [splitColonSpace]
  | cons c ct ih =>
    have hc : ¬ c = ':' := fun h => hk (by rw [h]; exact List.mem_cons_self ':' ct)
    have hct : ¬ ':' ∈ ct := fun h => hk (List.mem_cons_of_mem _ h)
    cases ct with
    | nil =>
      show splitColonSpace (c :: ':' :: ' ' :: rest) = some ([c], rest)
      conv_lhs => rw [splitColonSpace]
      rw [if_neg (by simp [hc])]
      simp [splitColonSpace]
    | cons c2 ct2 =>
      show splitColonSpace (c :: c2 :: (ct2 ++ ':' :: ' ' :: rest)) =
        some (c :: c2 :: ct2, rest)
      conv_lhs => rw [splitColonSpace]
      rw [if_neg (by simp [hc])]
      rw [← List.cons_append, ih hct]
      rfl

theorem splitColonSpace_colon_end {k : List Char} (hk : ¬ ':' ∈ k) :
    splitColonSpace (k ++ [':']) = none := by
  induction k with
  | nil => rfl
  | cons c ct ih =>
    have hc : ¬ c = ':' := fun h => hk (by rw [h]; exact List.mem_cons_self ':' ct)
    have hct : ¬ ':' ∈ ct := fun h => hk (List.mem_cons_of_mem _ h)
    cases ct with
    | nil =>
      show splitColonSpace (c :: [':']) = none
      conv_lhs => rw [splitColonSpace]
      rw [if_neg (by simp)]
      rfl
    | cons c2 ct2 =>
      show splitColonSpace (c :: c2 :: (ct2 ++ [':'])) = none
      conv_lhs => rw [splitColonSpace]
      rw [if_neg (by simp [hc])]
      rw [← List.cons_append, ih hct]
      rfl

theorem splitColonSpace_sound : ∀ (c : List Char) (k v : List Char),
    splitColonSpace c = some (k, v) → c = k ++ ':' :: ' ' :: v := by
  intro c
  induction c with
  | nil => intro k v h; cases h
  | cons a as ih =>
    intro k v h
    cases as with
    | nil => simp [splitColonSpace] at h
    | cons b bs =>
      rw [splitColonSpace] at h
      by_cases hcond : (a = ':' && b = ' ') = true
      · rw [if_pos hcond] at h
        simp only [Bool.and_eq_true, decide_eq_true_eq] at hcond
        have hk := (Prod.mk.inj (Option.some.inj h)).1
        have hv := (Prod.mk.inj (Option.some.inj h)).2
        subst hk
        subst hv
        rw [hcond.1, hcond.2]
        rfl
      · rw [if_neg hcond] at h
        obtain ⟨kv2, hsp, hf⟩ := Option.map_eq_some'.mp h
        have hk := (Prod.mk.inj hf).1
        have hv := (Prod.mk.inj hf).2
        have := ih kv2.1 kv2.2 (by rw [hsp])
        rw [← hk, ← hv, List.cons_append, ← this]

theorem mem_contentOf {l : List Char} {c : Char} (h : c ∈ contentOf l) :
    c ∈ l :=
  (List.dropWhile_sublist _).subset h

theorem contentOf_head_not_space :
    ∀ {l : List Char} {c : Char} {t : List Char},
      contentOf l = c :: t → ¬ c = ' ' := by
  intro l
  induction l with
  | nil => intro c t h; cases h
  | cons a as ih =>
    intro c t h
    by_cases ha : a = ' '
    · rw [show contentOf (a :: as) = contentOf as by
        unfold contentOf; rw [List.dropWhile_cons, if_pos (by simp [ha])]] at h
      exact ih h
    · rw [contentOf_cons_not_space ha] at h
      rw [← (List.cons.inj h).1]
      exact ha

theorem takeWhile_append_all {α : Type} {p : α → Bool} {l1 l2 : List α}
    (h : ∀ x ∈ l1, p x = true) :
    (l1 ++ l2).takeWhile p = l1 ++ l2.takeWhile p := by
  induction l1 with
  | nil => rfl
  | cons a t ih =>
    rw [List.cons_append, List.takeWhile_cons,
      if_pos (h a (List.mem_cons_self a t)), List.cons_append,
      ih (fun x hx => h x (List.mem_cons_of_mem a hx))]

theorem dropWhile_append_all {α : Type} {p : α → Bool} {l1 l2 : List α}
    (h : ∀ x ∈ l1, p x = true) :
    (l1 ++ l2).dropWhile p = l2.dropWhile p := by
  induction l1 with
  | nil => rfl
  | cons a t ih =>
    rw [List.cons_append, List.dropWhile_cons,
      if_pos (h a (List.mem_cons_self a t)),
      ih (fun x hx => h x (List.mem_cons_of_mem a hx))]

theorem printY_head_shape (i : Nat) (k : String) (v r : YNode) :
    ∃ t tail, printY i (.mcons k v r) = (spaces i ++ k.data ++ ':' :: t) :: tail := by
  cases v with
  | scalar sv => exact ⟨' ' :: sv.data, printY i r, printY_mcons_scalar i k sv r⟩
  | seq items =>
    cases items with
    | nil => exact ⟨' ' :: ['[', ']'], printY i r, printY_mcons_seqnil i k r⟩
    | cons x xs =>
      exact ⟨[], (x :: xs).map (fun it => spaces (i + 4) ++ '-' :: ' ' :: it.data) ++
        printY i r, printY_mcons_seq i k x xs r⟩
  | mnil => exact ⟨' ' :: ['\x7b', '\x7d'], printY i r, printY_mcons_mnil i k r⟩
  | mcons k2 v2 r2 =>
    exact ⟨[], printY (i + 4) (.mcons k2 v2 r2) ++ printY i r,
      printY_mcons_map i k k2 v2 r2 r⟩

theorem takeWhile_printY_eq_nil {i : Nat} {r : YNode} (hw : WFval r = true)
    (hm : isMapNode r = true) :
    (printY i r).takeWhile (fun l2 => i < indentOf l2) = [] := by
  cases r with
  | scalar v => cases hm
  | seq items => cases hm
  | mnil => rfl
  | mcons k v rr =>
    obtain ⟨t, tail, hp⟩ := printY_head_shape i k v rr
    rw [hp]
    simp only [List.takeWhile_cons]
    rw [indentOf_keyline (wfval_mcons hw).1]
    simp

theorem dropWhile_printY_self {i : Nat} {r : YNode} (hw : WFval r = true)
    (hm : isMapNode r = true) :
    (printY i r).dropWhile (fun l2 => i < indentOf l2) = printY i r := by
  cases r with
  | scalar v => cases hm
  | seq items => cases hm
  | mnil => rfl
  | mcons k v rr =>
    obtain ⟨t, tail, hp⟩ := printY_head_shape i k v rr
    rw [hp]
    simp only [List.dropWhile_cons]
    rw [indentOf_keyline (wfval_mcons hw).1]
    simp

theorem parseSeqItems_print (j : Nat) (items : List String) :
    parseSeqItems j
      (items.map (fun it => spaces j ++ '-' :: ' ' :: it.data)) = some items := by
  induction items with
  | nil => rfl
  | cons x xs ih =>
    show parseSeqItems j ((spaces j ++ '-' :: ' ' :: x.data) ::
      xs.map (fun it => spaces j ++ '-' :: ' ' :: it.data)) = some (x :: xs)
    rw [parseSeqItems]
    rw [indentOf_itemline, contentOf_itemline]
    rw [if_pos (by simp)]
    rw [ih]
    rfl

/-! ### parseEntriesF step lemmas -/

theorem parseEntriesF_nil (fuel i : Nat) :
    parseEntriesF (fuel + 1) i [] = some .mnil := rfl

theorem parseEntriesF_keyval (fuel i : Nat) (l : List Char)
    (rest : List (List Char)) (k v : List Char)
    (hind : indentOf l = i)
    (hdash : ¬ (contentOf l).take 2 = ['-', ' '])
    (hsplit : splitColonSpace (contentOf l) = some (k, v))
    (hk1 : k.isEmpty = false)
    (hk2 : k.contains ':' = false)
    (hch : rest.takeWhile (fun l2 => i < indentOf l2) = []) :
    parseEntriesF (fuel + 1) i (l :: rest) =
      match parseEntriesF fuel i rest with
      | some m => some (.mcons (String.mk k)
          (if v = ['\x7b', '\x7d'] then .mnil
           else if v = ['[', ']'] then .seq []
           else .scalar (String.mk v)) m)
      | none => none := by
  conv_lhs => rw [parseEntriesF]
  simp [hind, hdash, hsplit, hk1, hk2, hch]
  intro hmem
  simp at hk2
  exact absurd hmem hk2

theorem parseEntriesF_blockkey (fuel i : Nat) (l : List Char)
    (rest : List (List Char)) (k : List Char) (cl : List Char)
    (cls : List (List Char))
    (hind : indentOf l = i)
    (hdash : ¬ (contentOf l).take 2 = ['-', ' '])
    (hsplit : splitColonSpace (contentOf l) = none)
    (hlast : (contentOf l).getLast? = some ':')
    (hdrop : (contentOf l).dropLast = k)
    (hk1 : k.isEmpty = false)
    (hk2 : k.contains ':' = false)
    (htake : rest.takeWhile (fun l2 => i < indentOf l2) = cl :: cls) :
    parseEntriesF (fuel + 1) i (l :: rest) =
      match (if (contentOf cl).take 2 = ['-', ' ']
             then (parseSeqItems (indentOf cl) (cl :: cls)).map YNode.seq
             else parseEntriesF fuel (indentOf cl) (cl :: cls)) with
      | none => none
      | some cn =>
        match parseEntriesF fuel i
            (rest.dropWhile (fun l2 => i < indentOf l2)) with
        | some m => some (.mcons (String.mk k) cn m)
        | none => none := by
  conv_lhs => rw [parseEntriesF]
  simp [hind, hdash, hsplit, hlast, hdrop, hk1, hk2, htake]
  intro hmem
  simp at hk2
  exact absurd hmem hk2

/-! ### Well-formedness fact extractors -/

theorem wfkey_not_colon {k : String} (hw : WFkey k = true) :
    k.data.contains ':' = false := by
  unfold WFkey at hw
  rcases hk : k.data with _ | ⟨c, t⟩
  · rfl
  · rw [hk] at hw
    simp only [Bool.and_eq_true] at hw
    simpa using hw.1.1.2

theorem wfkey_no_nl {k : String} (hw : WFkey k = true) : ¬ '\n' ∈ k.data := by
  unfold WFkey at hw
  rcases hk : k.data with _ | ⟨c, t⟩
  · intro h; cases h
  · rw [hk] at hw
    simp only [Bool.and_eq_true] at hw
    simpa using hw.1.2

theorem wfkey_ne_nil {k : String} (hw : WFkey k = true) :
    k.data.isEmpty = false := by
  obtain ⟨c, t, hk, _⟩ := wfkey_head hw
  rw [hk]; rfl

theorem wfval_scalar_parts {s : String} (h : WFval (.scalar s) = true) :
    ¬ '\n' ∈ s.data ∧ ¬ s = "\x7b\x7d" ∧ ¬ s = "[]" := by
  unfold WFval at h
  simp only [Bool.and_eq_true] at h
  exact ⟨by simpa using h.1.1, by simpa using h.1.2, by simpa using h.2⟩

theorem wfval_seq_items {items : List String}
    (h : WFval (.seq items) = true) : ∀ it ∈ items, ¬ '\n' ∈ it.data := by
  unfold WFval at h
  rw [List.all_eq_true] at h
  intro it hit
  simpa using h it hit

/-- Sequence-items roundtrip, cons form. -/
theorem parseSeqItems_print_cons (j : Nat) (x : String) (xs : List String) :
    parseSeqItems j ((spaces j ++ '-' :: ' ' :: x.data) ::
      xs.map (fun it => spaces j ++ '-' :: ' ' :: it.data)) = some (x :: xs) :=
  parseSeqItems_print j (x :: xs)

/-! ### The print-parse roundtrip -/

theorem parseEntriesF_printY : ∀ (v : YNode), WFval v = true →
    isMapNode v = true → ∀ (i fuel : Nat), (printY i v).length < fuel →
    parseEntriesF fuel i (printY i v) = some v := by
  intro v
  induction v with
  | scalar s => intro _ hm; cases hm
  | seq items => intro _ hm; cases hm
  | mnil =>
    intro _ _ i fuel hf
    cases fuel with
    | zero => exact absurd hf (by omega)
    | succ f => exact parseEntriesF_nil f i
  | mcons k val r ihv ihr =>
    intro hw hm i fuel hf
    obtain ⟨hwk, hwv, hwr, hmr⟩ := wfval_mcons hw
    have hkc : k.data.contains ':' = false := wfkey_not_colon hwk
    have hkcm : ¬ ':' ∈ k.data := by simpa using hkc
    have hkne : k.data.isEmpty = false := wfkey_ne_nil hwk
    cases val with
    | scalar sv =>
      rw [printY_mcons_scalar] at hf ⊢
      cases fuel with
      | zero => exact absurd hf (by omega)
      | succ f =>
        have hlen : (printY i r).length < f := by
          simp only [List.length_cons] at hf; omega
        rw [parseEntriesF_keyval f i
            (spaces i ++ k.data ++ ':' :: ' ' :: sv.data) (printY i r)
            k.data sv.data
            (indentOf_keyline hwk i (':' :: ' ' :: sv.data))
            (by rw [contentOf_keyline hwk]
                exact key_colon_take_two hwk (' ' :: sv.data))
            (by rw [contentOf_keyline hwk]
                exact splitColonSpace_key hkcm sv.data)
            hkne hkc
            (takeWhile_printY_eq_nil hwr hmr)]
        rw [ihr hwr hmr i f hlen]
        obtain ⟨hnl, hne1, hne2⟩ := wfval_scalar_parts hwv
        have h1 : ¬ (sv.data = ['\x7b', '\x7d']) :=
          fun hd => hne1 (String.ext (by rw [hd]))
        have h2 : ¬ (sv.data = ['[', ']']) :=
          fun hd => hne2 (String.ext (by rw [hd]))
        show some (YNode.mcons (String.mk k.data)
          (if sv.data = ['\x7b', '\x7d'] then YNode.mnil
           else if sv.data = ['[', ']'] then YNode.seq []
           else YNode.scalar (String.mk sv.data)) r) =
          some (YNode.mcons k (YNode.scalar sv) r)
        rw [if_neg h1, if_neg h2]
    | seq items =>
      cases items with
      | nil =>
        rw [printY_mcons_seqnil] at hf ⊢
        cases fuel with
        | zero => exact absurd hf (by omega)
        | succ f =>
          have hlen : (printY i r).length < f := by
            simp only [List.length_cons] at hf; omega
          rw [parseEntriesF_keyval f i
              (spaces i ++ k.data ++ ':' :: ' ' :: ['[', ']']) (printY i r)
              k.data ['[', ']']
              (indentOf_keyline hwk i (':' :: ' ' :: ['[', ']']))
              (by rw [contentOf_keyline hwk]
                  exact key_colon_take_two hwk (' ' :: ['[', ']']))
              (by rw [contentOf_keyline hwk]
                  exact splitColonSpace_key hkcm ['[', ']'])
              hkne hkc
              (takeWhile_printY_eq_nil hwr hmr)]
          rw [ihr hwr hmr i f hlen]
          show some (YNode.mcons (String.mk k.data)
            (if (['[', ']'] : List Char) = ['\x7b', '\x7d'] then YNode.mnil
             else if (['[', ']'] : List Char) = ['[', ']'] then YNode.seq []
             else YNode.scalar (String.mk ['[', ']'])) r) =
            some (YNode.mcons k (YNode.seq []) r)
          rw [if_neg (by decide), if_pos rfl]
      | cons x xs =>
        rw [printY_mcons_seq] at hf ⊢
        cases fuel with
        | zero => exact absurd hf (by omega)
        | succ f =>
          have hall : ∀ lx ∈ (x :: xs).map
              (fun it => spaces (i + 4) ++ '-' :: ' ' :: it.data),
              (fun l2 => decide (i < indentOf l2)) lx = true := by
            intro lx hlx
            obtain ⟨it, _, hit⟩ := List.mem_map.mp hlx
            rw [← hit]
            simp only [indentOf_itemline]
            simp
          have htakeAll :
              ((x :: xs).map (fun it => spaces (i + 4) ++ '-' :: ' ' :: it.data)
                ++ printY i r).takeWhile (fun l2 => i < indentOf l2) =
              (x :: xs).map (fun it => spaces (i + 4) ++ '-' :: ' ' :: it.data) := by
            rw [takeWhile_append_all hall, takeWhile_printY_eq_nil hwr hmr,
              List.append_nil]
          have hdropAll :
              ((x :: xs).map (fun it => spaces (i + 4) ++ '-' :: ' ' :: it.data)
                ++ printY i r).dropWhile (fun l2 => i < indentOf l2) =
              printY i r := by
            rw [dropWhile_append_all hall, dropWhile_printY_self hwr hmr]
          have hlen : (printY i r).length < f := by
            simp only [List.length_cons, List.length_append] at hf; omega
          rw [parseEntriesF_blockkey f i
              (spaces i ++ k.data ++ [':'])
              ((x :: xs).map (fun it => spaces (i + 4) ++ '-' :: ' ' :: it.data)
                ++ printY i r)
              k.data
              (spaces (i + 4) ++ '-' :: ' ' :: x.data)
              (xs.map (fun it => spaces (i + 4) ++ '-' :: ' ' :: it.data))
              (indentOf_keyline hwk i [':'])
              (by rw [contentOf_keyline hwk]
                  exact key_colon_take_two hwk [])
              (by rw [contentOf_keyline hwk]
                  exact splitColonSpace_colon_end hkcm)
              (by rw [contentOf_keyline hwk]
                  exact List.getLast?_concat k.data)
              (by rw [contentOf_keyline hwk]
                  exact List.dropLast_concat ..)
              hkne hkc
              (by rw [htakeAll, List.map_cons])]
          rw [contentOf_itemline (i + 4) (' ' :: x.data)]
          rw [if_pos (show List.take 2 ('-' :: ' ' :: x.data) = ['-', ' '] from rfl)]
          rw [indentOf_itemline (i + 4) (' ' :: x.data)]
          rw [parseSeqItems_print_cons (i + 4) x xs]
          rw [hdropAll, ihr hwr hmr i f hlen]
          rfl
    | mnil =>
      rw [printY_mcons_mnil] at hf ⊢
      cases fuel with
      | zero => exact absurd hf (by omega)
      | succ f =>
        have hlen : (printY i r).length < f := by
          simp only [List.length_cons] at hf; omega
        rw [parseEntriesF_keyval f i
            (spaces i ++ k.data ++ ':' :: ' ' :: ['\x7b', '\x7d']) (printY i r)
            k.data ['\x7b', '\x7d']
            (indentOf_keyline hwk i (':' :: ' ' :: ['\x7b', '\x7d']))
            (by rw [contentOf_keyline hwk]
                exact key_colon_take_two hwk (' ' :: ['\x7b', '\x7d']))
            (by rw [contentOf_keyline hwk]
                exact splitColonSpace_key hkcm ['\x7b', '\x7d'])
            hkne hkc
            (takeWhile_printY_eq_nil hwr hmr)]
        rw [ihr hwr hmr i f hlen]
        show some (YNode.mcons (String.mk k.data)
          (if (['\x7b', '\x7d'] : List Char) = ['\x7b', '\x7d'] then YNode.mnil
           else if (['\x7b', '\x7d'] : List Char) = ['[', ']'] then YNode.seq []
           else YNode.scalar (String.mk ['\x7b', '\x7d'])) r) =
          some (YNode.mcons k YNode.mnil r)
        rw [if_pos rfl]
    | mcons k2 v2 r2 =>
      rw [printY_mcons_map] at hf ⊢
      cases fuel with
      | zero => exact absurd hf (by omega)
      | succ f =>
        have hwk2 : WFkey k2 = true := (wfval_mcons hwv).1
        have hall : ∀ lx ∈ printY (i + 4) (YNode.mcons k2 v2 r2),
            (fun l2 => decide (i < indentOf l2)) lx = true := by
          intro lx hlx
          have := printY_indent_ge (YNode.mcons k2 v2 r2) (i + 4) lx hlx
          simp only [decide_eq_true_eq]
          omega
        have htakeAll :
            (printY (i + 4) (YNode.mcons k2 v2 r2)
              ++ printY i r).takeWhile (fun l2 => i < indentOf l2) =
            printY (i + 4) (YNode.mcons k2 v2 r2) := by
          rw [takeWhile_append_all hall, takeWhile_printY_eq_nil hwr hmr,
            List.append_nil]
        have hdropAll :
            (printY (i + 4) (YNode.mcons k2 v2 r2)
              ++ printY i r).dropWhile (fun l2 => i < indentOf l2) =
            printY i r := by
          rw [dropWhile_append_all hall, dropWhile_printY_self hwr hmr]
        obtain ⟨t2, tail2, hp2⟩ := printY_head_shape (i + 4) k2 v2 r2
        have hlenr : (printY i r).length < f := by
          simp only [List.length_cons, List.length_append] at hf; omega
        have hlenv : (printY (i + 4) (YNode.mcons k2 v2 r2)).length < f := by
          simp only [List.length_cons, List.length_append] at hf; omega
        rw [parseEntriesF_blockkey f i
            (spaces i ++ k.data ++ [':'])
            (printY (i + 4) (YNode.mcons k2 v2 r2) ++ printY i r)
            k.data
            (spaces (i + 4) ++ k2.data ++ ':' :: t2)
            tail2
            (indentOf_keyline hwk i [':'])
            (by rw [contentOf_keyline hwk]
                exact key_colon_take_two hwk [])
            (by rw [contentOf_keyline hwk]
                exact splitColonSpace_colon_end hkcm)
            (by rw [contentOf_keyline hwk]
                exact List.getLast?_concat k.data)
            (by rw [contentOf_keyline hwk]
                exact List.dropLast_concat ..)
            hkne hkc
            (by rw [htakeAll, hp2])]
        rw [if_neg (by
          rw [contentOf_keyline hwk2]
          exact key_colon_take_two hwk2 t2)]
        rw [indentOf_keyline hwk2]
        rw [← hp2, ihv hwv (by rfl) (i + 4) f hlenv]
        rw [hdropAll, ihr hwr hmr i f hlenr]

/-! ### Newline-freedom and non-blankness of printed lines -/

theorem no_nl_spaces (i : Nat) : ¬ '\n' ∈ spaces i := by
  intro h
  rw [spaces] at h
  rw [List.mem_replicate] at h
  exact absurd h.2 (by decide)

theorem printY_no_nl : ∀ (v : YNode), WFval v = true →
    ∀ (i : Nat) (l : List Char), l ∈ printY i v → ¬ '\n' ∈ l := by
  intro v
  induction v with
  | scalar s => intro _ i l h; cases h
  | seq items => intro _ i l h; cases h
  | mnil => intro _ i l h; cases h
  | mcons k val r ihv ihr =>
    intro hw i l h
    obtain ⟨hwk, hwv, hwr, hmr⟩ := wfval_mcons hw
    have hknl := wfkey_no_nl hwk
    cases val with
    | scalar sv =>
      rw [printY_mcons_scalar] at h
      rcases List.mem_cons.mp h with hEq | hMem
      · subst hEq
        intro hin
        rcases List.mem_append.mp hin with h1 | h2
        · rcases List.mem_append.mp h1 with ha | hb
          · exact no_nl_spaces i ha
          · exact hknl hb
        · rcases List.mem_cons.mp h2 with hx | h3
          · exact absurd hx (by decide)
          · rcases List.mem_cons.mp h3 with hx | h4
            · exact absurd hx (by decide)
            · exact (wfval_scalar_parts hwv).1 h4
      · exact ihr hwr i l hMem
    | seq items =>
      cases items with
      | nil =>
        rw [printY_mcons_seqnil] at h
        rcases List.mem_cons.mp h with hEq | hMem
        · subst hEq
          intro hin
          rcases List.mem_append.mp hin with h1 | h2
          · rcases List.mem_append.mp h1 with ha | hb
            · exact no_nl_spaces i ha
            · exact hknl hb
          · exact absurd h2 (by decide)
        · exact ihr hwr i l hMem
      | cons x xs =>
        rw [printY_mcons_seq] at h
        rcases List.mem_cons.mp h with hEq | hMem
        · subst hEq
          intro hin
          rcases List.mem_append.mp hin with h1 | h2
          · rcases List.mem_append.mp h1 with ha | hb
            · exact no_nl_spaces i ha
            · exact hknl hb
          · exact absurd h2 (by decide)
        · rcases List.mem_append.mp hMem with hItem | hRest
          · obtain ⟨it, hitMem, hit⟩ := List.mem_map.mp hItem
            subst hit
            intro hin
            rcases List.mem_append.mp hin with ha | h2
            · exact no_nl_spaces (i + 4) ha
            · rcases List.mem_cons.mp h2 with hx | h3
              · exact absurd hx (by decide)
              · rcases List.mem_cons.mp h3 with hx | h4
                · exact absurd hx (by decide)
                · exact wfval_seq_items hwv it hitMem h4
          · exact ihr hwr i l hRest
    | mnil =>
      rw [printY_mcons_mnil] at h
      rcases List.mem_cons.mp h with hEq | hMem
      · subst hEq
        intro hin
        rcases List.mem_append.mp hin with h1 | h2
        · rcases List.mem_append.mp h1 with ha | hb
          · exact no_nl_spaces i ha
          · exact hknl hb
        · exact absurd h2 (by decide)
      · exact ihr hwr i l hMem
    | mcons k2 v2 r2 =>
      rw [printY_mcons_map] at h
      rcases List.mem_cons.mp h with hEq | hMem
      · subst hEq
        intro hin
        rcases List.mem_append.mp hin with h1 | h2
        · rcases List.mem_append.mp h1 with ha | hb
          · exact no_nl_spaces i ha
          · exact hknl hb
        · exact absurd h2 (by decide)
      · rcases List.mem_append.mp hMem with hChild | hRest
        · exact ihv hwv (i + 4) l hChild
        · exact ihr hwr i l hRest

theorem printY_content_isEmpty : ∀ (v : YNode), WFval v = true →
    ∀ (i : Nat) (l : List Char), l ∈ printY i v →
      (contentOf l).isEmpty = false := by
  intro v
  induction v with
  | scalar s => intro _ i l h; cases h
  | seq items => intro _ i l h; cases h
  | mnil => intro _ i l h; cases h
  | mcons k val r ihv ihr =>
    intro hw i l h
    obtain ⟨hwk, hwv, hwr, hmr⟩ := wfval_mcons hw
    obtain ⟨c, ct, hk, hc⟩ := wfkey_head hwk
    cases val with
    | scalar sv =>
      rw [printY_mcons_scalar] at h
      rcases List.mem_cons.mp h with hEq | hMem
      · subst hEq
        rw [contentOf_keyline hwk, hk, List.cons_append]
        rfl
      · exact ihr hwr i l hMem
    | seq items =>
      cases items with
      | nil =>
        rw [printY_mcons_seqnil] at h
        rcases List.mem_cons.mp h with hEq | hMem
        · subst hEq
          rw [contentOf_keyline hwk, hk, List.cons_append]
          rfl
        · exact ihr hwr i l hMem
      | cons x xs =>
        rw [printY_mcons_seq] at h
        rcases List.mem_cons.mp h with hEq | hMem
        · subst hEq
          rw [contentOf_keyline hwk, hk, List.cons_append]
          rfl
        · rcases List.mem_append.mp hMem with hItem | hRest
          · obtain ⟨it, _, hit⟩ := List.mem_map.mp hItem
            subst hit
            rw [contentOf_itemline]
            rfl
          · exact ihr hwr i l hRest
    | mnil =>
      rw [printY_mcons_mnil] at h
      rcases List.mem_cons.mp h with hEq | hMem
      · subst hEq
        rw [contentOf_keyline hwk, hk, List.cons_append]
        rfl
      · exact ihr hwr i l hMem
    | mcons k2 v2 r2 =>
      rw [printY_mcons_map] at h
      rcases List.mem_cons.mp h with hEq | hMem
      · subst hEq
        rw [contentOf_keyline hwk, hk, List.cons_append]
        rfl
      · rcases List.mem_append.mp hMem with hChild | hRest
        · exact ihv hwv (i + 4) l hChild
        · exact ihr hwr i l hRest

/-! ### Document-level roundtrip -/

theorem docLines_printDoc (root : YNode) (hw : WFval root = true) :
    docLines (printDoc root) = printY 0 root := by
  show (splitCharList '\n' (joinLines (printY 0 root))).filter
    (fun l => !(contentOf l).isEmpty) = printY 0 root
  rw [splitCharList_joinLines (printY 0 root)
    (fun l hl => by simp; exact printY_no_nl root hw 0 l hl)]
  rw [List.filter_append]
  rw [List.filter_eq_self.mpr
    (fun l hl => by rw [printY_content_isEmpty root hw 0 l hl]; rfl)]
  rw [show List.filter (fun l => !(contentOf l).isEmpty) [([] : List Char)] = []
    from rfl]
  rw [List.append_nil]

theorem parseDoc_keyhead (s : String) (l : List Char)
    (rest : List (List Char))
    (hdl : docLines s = l :: rest)
    (hdash : ¬ (contentOf l).take 2 = ['-', ' ']) :
    parseDoc s =
      match parseEntriesF ((l :: rest).length + 1) (indentOf l) (l :: rest) with
      | some m => some m
      | none =>
        match rest with
        | [] => some (.scalar (String.mk (contentOf l)))
        | _ => none := by
  simp only [parseDoc, hdl]
  rw [if_neg hdash]
  cases rest with
  | nil => rfl
  | cons a t => rfl

theorem parseDoc_printDoc (k : String) (v r : YNode)
    (hw : WFval (.mcons k v r) = true) :
    parseDoc (printDoc (.mcons k v r)) = some (.mcons k v r) := by
  have hwk : WFkey k = true := (wfval_mcons hw).1
  obtain ⟨t, tail, hp⟩ := printY_head_shape 0 k v r
  have hdl : docLines (printDoc (.mcons k v r)) =
      (spaces 0 ++ k.data ++ ':' :: t) :: tail := by
    rw [docLines_printDoc _ hw, hp]
  rw [parseDoc_keyhead _ _ _ hdl
    (by rw [contentOf_keyline hwk]; exact key_colon_take_two hwk t)]
  rw [indentOf_keyline hwk]
  rw [← hp]
  rw [parseEntriesF_printY (.mcons k v r) hw (by rfl) 0
    ((printY 0 (.mcons k v r)).length + 1) (by omega)]

/-! ### Parser soundness helpers -/

theorem wfkey_intro (c : Char) (t : List Char)
    (h1 : ¬ c = ' ') (h2 : ¬ ':' ∈ c :: t) (h3 : ¬ '\n' ∈ c :: t)
    (h4 : ¬ (c :: t).take 2 = ['-', ' ']) :
    WFkey (String.mk (c :: t)) = true := by
  show (!(c = ' ') && !((c :: t).contains ':') && !((c :: t).contains '\n') &&
    !((c :: t).take 2 = ['-', ' '])) = true
  simp [h1, h2, h3]
  by_cases hcdash : c = '-'
  · right
    intro ht
    apply h4
    rw [show List.take 2 (c :: t) = c :: List.take 1 t from rfl, hcdash, ht]
  · left
    exact hcdash

theorem wfkey_build (kd : List Char) (L : List Char) (tailext : List Char)
    (hL : contentOf L = kd ++ tailext)
    (hne : ¬ kd.isEmpty = true)
    (hcol : ¬ ':' ∈ kd)
    (hnl : ¬ '\n' ∈ L)
    (hdash : ¬ (contentOf L).take 2 = ['-', ' ']) :
    WFkey (String.mk kd) = true := by
  cases kd with
  | nil => exact absurd rfl hne
  | cons c t =>
    have hLc : contentOf L = c :: (t ++ tailext) := by
      rw [hL, List.cons_append]
    have hc : ¬ c = ' ' := contentOf_head_not_space hLc
    have h3 : ¬ '\n' ∈ c :: t := by
      intro hm
      apply hnl
      apply mem_contentOf
      rw [hL]
      exact List.mem_append.mpr (Or.inl hm)
    apply wfkey_intro c t hc hcol h3
    cases t with
    | nil =>
      intro heq
      have hlen := congrArg List.length heq
      simp at hlen
    | cons c2 t2 =>
      intro heq
      apply hdash
      have htk : (contentOf L).take 2 = [c, c2] := by
        rw [hLc]
        rfl
      rw [htk]
      exact heq

theorem wfval_scalar_build (sv : List Char) (L : List Char)
    (hsub : ∀ c ∈ sv, c ∈ L) (hnl : ¬ '\n' ∈ L)
    (hb : ¬ sv = ['\x7b', '\x7d']) (hk : ¬ sv = ['[', ']']) :
    WFval (.scalar (String.mk sv)) = true := by
  show (!((String.mk sv).data.contains '\n') && !(String.mk sv = "\x7b\x7d") &&
    !(String.mk sv = "[]")) = true
  have h1 : ¬ '\n' ∈ sv := fun h => hnl (hsub _ h)
  have h2 : ¬ (String.mk sv = "\x7b\x7d") :=
    fun he => hb (congrArg String.data he)
  have h3 : ¬ (String.mk sv = "[]") :=
    fun he => hk (congrArg String.data he)
  simp [h2, h3]
  exact h1

theorem wfval_seq_build (items : List String)
    (h : ∀ it ∈ items, ¬ '\n' ∈ it.data) : WFval (.seq items) = true := by
  show items.all (fun it => !(it.data.contains '\n')) = true
  rw [List.all_eq_true]
  intro it hit
  simpa using h it hit

theorem parseSeqItems_sound (j : Nat) :
    ∀ (ls : List (List Char)) (items : List String),
      (∀ l ∈ ls, ¬ '\n' ∈ l) → parseSeqItems j ls = some items →
      ∀ it ∈ items, ¬ '\n' ∈ it.data := by
  intro ls
  induction ls with
  | nil =>
    intro items _ h it hit
    have : ([] : List String) = items := Option.some.inj h
    rw [← this] at hit
    cases hit
  | cons l rest ih =>
    intro items hnl h
    rw [parseSeqItems] at h
    by_cases hc : (indentOf l = j && (contentOf l).take 2 = ['-', ' ']) = true
    · rw [if_pos hc] at h
      obtain ⟨its, hits, hmap⟩ := Option.map_eq_some'.mp h
      intro it hit
      rw [← hmap] at hit
      rcases List.mem_cons.mp hit with hEq | hMem
      · subst hEq
        intro hin
        have hcl : '\n' ∈ contentOf l := List.mem_of_mem_drop hin
        exact hnl l (List.mem_cons_self l rest) (mem_contentOf hcl)
      · exact ih its (fun x hx => hnl x (List.mem_cons_of_mem l hx)) hits it hMem
    · rw [if_neg hc] at h
      cases h

theorem docLines_no_nl (s : String) : ∀ l ∈ docLines s, ¬ '\n' ∈ l := by
  intro l hl
  unfold docLines at hl
  have hl2 := List.mem_of_mem_filter hl
  have hns := mem_splitCharList_not_sep '\n' s.data l hl2
  simpa using hns

theorem parseEntriesF_sound : ∀ (fuel i : Nat) (ls : List (List Char))
    (v : YNode), (∀ l ∈ ls, ¬ '\n' ∈ l) → parseEntriesF fuel i ls = some v →
    WFval v = true ∧ isMapNode v = true := by
  intro fuel
  induction fuel with
  | zero => intro i ls v _ h; cases h
  | succ f ih =>
    intro i ls v hnl h
    cases ls with
    | nil =>
      rw [parseEntriesF_nil] at h
      rw [← Option.some.inj h]
      exact ⟨rfl, rfl⟩
    | cons l rest =>
      have hnll : ¬ '\n' ∈ l := hnl l (List.mem_cons_self l rest)
      have hnlr : ∀ x ∈ rest, ¬ '\n' ∈ x :=
        fun x hx => hnl x (List.mem_cons_of_mem l hx)
      simp only [parseEntriesF] at h
      split at h
      · cases h
      split at h
      · cases h
      rename_i hii hdash
      split at h
      next kv hsp =>
        split at h
        · cases h
        split at h
        · cases h
        split at h
        · cases h
        rename_i hk1 hk2 hch
        split at h
        next m hm =>
          have hv := Option.some.inj h
          rw [← hv]
          have hkd := splitColonSpace_sound (contentOf l) kv.1 kv.2
            (by rw [hsp])
          have hwfk : WFkey (String.mk kv.1) = true :=
            wfkey_build kv.1 l (':' :: ' ' :: kv.2) hkd hk1
              (by simpa using hk2) hnll hdash
          have hrec := ih i rest m hnlr hm
          refine ⟨wfval_mcons_intro hwfk ?_ hrec.1 hrec.2, rfl⟩
          split
          · rfl
          split
          · rfl
          rename_i hb hbr
          exact wfval_scalar_build kv.2 l
            (fun c hc => mem_contentOf (by
              rw [hkd]
              exact List.mem_append.mpr (Or.inr
                (List.mem_cons_of_mem _ (List.mem_cons_of_mem _ hc)))))
            hnll hb hbr
        next hm => cases h
      next hsp =>
        split at h
        next hlast =>
          split at h
          · cases h
          split at h
          · cases h
          rename_i hk1 hk2
          split at h
          next htw => cases h
          next cl cls htw =>
            split at h
            next hcn => cases h
            next cn hcn =>
              split at h
              next m hm =>
                have hv := Option.some.inj h
                rw [← hv]
                have hrecL : (contentOf l).dropLast ++ [':'] = contentOf l :=
                  List.dropLast_append_getLast? ':' hlast
                have hkd : contentOf l = (contentOf l).dropLast ++ [':'] :=
                  hrecL.symm
                have hwfk := wfkey_build (contentOf l).dropLast l [':'] hkd hk1
                  (by simpa using hk2) hnll hdash
                have hsubL : ∀ x ∈ cl :: cls, x ∈ rest := by
                  intro x hx
                  rw [← htw] at hx
                  exact (List.takeWhile_sublist _).subset hx
                have hnlc : ∀ x ∈ cl :: cls, ¬ '\n' ∈ x :=
                  fun x hx => hnlr x (hsubL x hx)
                have hnld : ∀ x ∈ rest.dropWhile (fun l2 => i < indentOf l2),
                    ¬ '\n' ∈ x :=
                  fun x hx => hnlr x ((List.dropWhile_sublist _).subset hx)
                have hrecm := ih i _ m hnld hm
                refine ⟨wfval_mcons_intro hwfk ?_ hrecm.1 hrecm.2, rfl⟩
                by_cases hdash2 : (contentOf cl).take 2 = ['-', ' ']
                · rw [if_pos hdash2] at hcn
                  obtain ⟨its, hits, hmap⟩ := Option.map_eq_some'.mp hcn
                  rw [← hmap]
                  exact wfval_seq_build its
                    (parseSeqItems_sound (indentOf cl) (cl :: cls) its hnlc hits)
                · rw [if_neg hdash2] at hcn
                  exact (ih (indentOf cl) (cl :: cls) cn hnlc hcn).1
              next hm => cases h
        next => cases h

theorem parseDoc_sound_mcons (s : String) (k : String) (v r : YNode)
    (h : parseDoc s = some (.mcons k v r)) :
    WFval (.mcons k v r) = true := by
  simp only [parseDoc] at h
  split at h
  next hdl => exact YNode.noConfusion (Option.some.inj h)
  next l rest hdl =>
    split at h
    · obtain ⟨its, _, hmap⟩ := Option.map_eq_some'.mp h
      exact YNode.noConfusion hmap
    · split at h
      next m hm =>
        have hmv := Option.some.inj h
        rw [← hmv]
        exact (parseEntriesF_sound ((l :: rest).length + 1) (indentOf l)
          (l :: rest) m
          (fun x hx => docLines_no_nl s x (by rw [hdl]; exact hx)) hm).1
      next hm =>
        split at h
        next => exact YNode.noConfusion (Option.some.inj h)
        next => cases h

/-- C6: StripPorts is idempotent: whenever StripPorts succeeds, running it
again on its own output succeeds and returns the output unchanged. -/
theorem C6_strip_ports_idempotent (M out : String) (K : List String)
    (h : StripPorts M K = .ok out) : StripPorts out K = .ok out := by
  simp only [StripPorts] at h
  split at h
  · cases h
  next root hparse =>
    split at h
    next k v r =>
      have hout := Except.ok.inj h
      have hwf : WFval (.mcons k v r) = true :=
        parseDoc_sound_mcons M k v r hparse
      have hwf2 : WFval (stripRoot K (.mcons k v r)) = true := stripRoot_wf hwf
      obtain ⟨vv, rr, hs⟩ : ∃ vv rr,
          stripRoot K (.mcons k v r) = .mcons k vv rr :=
        ⟨_, _, stripRoot_mcons K k v r⟩
      show StripPorts out K = .ok out
      rw [← hout, hs]
      simp only [StripPorts]
      rw [parseDoc_printDoc k vv rr (by rw [← hs]; exact hwf2)]
      show Except.ok (printDoc (stripRoot K (.mcons k vv rr))) =
        .ok (printDoc (.mcons k vv rr))
      rw [← hs, stripRoot_idem, hs]
    next hne =>
      have hout := Except.ok.inj h
      rw [← hout]
      simp only [StripPorts]
      rw [hparse]
      cases root with
      | scalar s => rfl
      | seq items => rfl
      | mnil => rfl
      | mcons k v r => exact absurd rfl (hne k v r)

/-- Witness for C6 at a concrete manifest with a ports key. -/
theorem C6_strip_ports_idempotent_witness :
    StripPorts "services:\n  web:\n    image: nginx\n    ports:\n      - \"80:80\"\n" [] =
      .ok "services:\n    web:\n        image: nginx\n" ∧
    StripPorts "services:\n    web:\n        image: nginx\n" [] =
      .ok "services:\n    web:\n        image: nginx\n" :=
  ⟨by decide, C6_strip_ports_idempotent
    "services:\n  web:\n    image: nginx\n    ports:\n      - \"80:80\"\n"
    "services:\n    web:\n        image: nginx\n" [] (by decide)⟩

theorem mem_of_mem_stripSvcEntries : ∀ {sv : YNode} {a : String} {b : YNode},
    (a, b) ∈ toEntries (stripSvcEntries sv) → (a, b) ∈ toEntries sv := by
  intro sv
  induction sv with
  | scalar s => intro a b h; exact h
  | seq items => intro a b h; exact h
  | mnil => intro a b h; exact h
  | mcons k val rest ihv ihr =>
    intro a b h
    rw [stripSvcEntries_mcons] at h
    by_cases hk : (k == "ports") = true
    · rw [if_pos hk] at h
      exact List.mem_cons_of_mem _ (ihr h)
    · rw [if_neg hk] at h
      rcases List.mem_cons.mp h with hEq | hMem
      · rw [hEq]
        exact List.mem_cons_self _ _
      · exact List.mem_cons_of_mem _ (ihr hMem)

theorem stripSvcEntries_no_ports : ∀ {sv : YNode} {a : String} {b : YNode},
    (a, b) ∈ toEntries (stripSvcEntries sv) → ¬ a = "ports" := by
  intro sv
  induction sv with
  | scalar s => intro a b h; cases h
  | seq items => intro a b h; cases h
  | mnil => intro a b h; cases h
  | mcons k val rest ihv ihr =>
    intro a b h
    rw [stripSvcEntries_mcons] at h
    by_cases hk : (k == "ports") = true
    · rw [if_pos hk] at h
      exact ihr h
    · rw [if_neg hk] at h
      rcases List.mem_cons.mp h with hEq | hMem
      · have ha : a = k := (Prod.mk.inj hEq).1
        rw [ha]
        intro hport
        exact hk (by rw [hport]; decide)
      · exact ihr hMem

theorem mem_toEntries_stripRoot_services {keep : List String} :
    ∀ {root : YNode} {k0 : String} {svcs : YNode},
    (k0, svcs) ∈ toEntries root → k0 = "services" →
    (k0, stripServices keep svcs) ∈ toEntries (stripRoot keep root) := by
  intro root
  induction root with
  | scalar s => intro k0 svcs h _; cases h
  | seq items => intro k0 svcs h _; cases h
  | mnil => intro k0 svcs h _; cases h
  | mcons k v rest ihv ihr =>
    intro k0 svcs h hk0
    rw [stripRoot_mcons]
    rcases List.mem_cons.mp h with hEq | hMem
    · have hk := (Prod.mk.inj hEq).1
      have hv := (Prod.mk.inj hEq).2
      have hks : k = "services" := by rw [← hk, hk0]
      rw [if_pos (by rw [hks]; decide)]
      rw [hk, hv]
      exact List.mem_cons_self _ _
    · exact List.mem_cons_of_mem _ (ihr hMem hk0)

/-- C7: StripPorts removes only the ports entries of services outside the
keep-set: the output is the re-serialized stripped tree in which every
non-services top-level entry survives unchanged, every services mapping
keeps every service (kept services verbatim, others with exactly their
ports entries removed), and stripping a service preserves exactly its
non-ports entries, values untouched. -/
theorem C7_strip_ports_frame (M out : String) (K : List String)
    (k : String) (v r : YNode)
    (hok : StripPorts M K = .ok out)
    (hparse : parseDoc M = some (.mcons k v r)) :
    out = printDoc (stripRoot K (.mcons k v r)) ∧
    (∀ key val, (key, val) ∈ toEntries (.mcons k v r) → ¬ key = "services" →
      (key, val) ∈ toEntries (stripRoot K (.mcons k v r))) ∧
    (∀ key svcs, (key, svcs) ∈ toEntries (.mcons k v r) → key = "services" →
      (key, stripServices K svcs) ∈ toEntries (stripRoot K (.mcons k v r))) ∧
    (∀ svcs name sv, (name, sv) ∈ toEntries svcs →
      (name, if K.contains name then sv else stripSvcEntries sv) ∈
        toEntries (stripServices K svcs)) ∧
    (∀ sv ek ev, (ek, ev) ∈ toEntries sv → ¬ ek = "ports" →
      (ek, ev) ∈ toEntries (stripSvcEntries sv)) ∧
    (∀ sv ek ev, (ek, ev) ∈ toEntries (stripSvcEntries sv) →
      (ek, ev) ∈ toEntries sv ∧ ¬ ek = "ports") := by
  refine ⟨?_, fun key val h hk => mem_toEntries_stripRoot h hk,
    fun key svcs h hk => mem_toEntries_stripRoot_services h hk,
    fun svcs name sv h => mem_toEntries_stripServices h,
    fun sv ek ev h hk => mem_toEntries_stripSvcEntries h hk,
    fun sv ek ev h =>
      ⟨mem_of_mem_stripSvcEntries h, stripSvcEntries_no_ports h⟩⟩
  simp only [StripPorts] at hok
  rw [hparse] at hok
  have h2 : Except.ok (printDoc (stripRoot K (.mcons k v r))) =
      (Except.ok out : Except String String) := hok
  exact (Except.ok.inj h2).symm

/-- Witness for C7: a service with a ports entry and an environment entry
holding a dollar-brace variable reference; stripping keeps the
environment entry verbatim. -/
theorem C7_strip_ports_frame_witness :
    StripPorts "services:\n  web:\n    ports:\n      - \"80:80\"\n    environment:\n      - TOKEN=$\x7bAPI_TOKEN\x7d\n" [] =
      .ok "services:\n    web:\n        environment:\n            - TOKEN=$\x7bAPI_TOKEN\x7d\n" ∧
    parseDoc "services:\n  web:\n    ports:\n      - \"80:80\"\n    environment:\n      - TOKEN=$\x7bAPI_TOKEN\x7d\n" =
      some (.mcons "services" (.mcons "web"
        (.mcons "ports" (.seq ["\"80:80\""])
          (.mcons "environment" (.seq ["TOKEN=$\x7bAPI_TOKEN\x7d"]) .mnil))
        .mnil) .mnil) ∧
    "services:\n    web:\n        environment:\n            - TOKEN=$\x7bAPI_TOKEN\x7d\n" =
      printDoc (stripRoot [] (.mcons "services" (.mcons "web"
        (.mcons "ports" (.seq ["\"80:80\""])
          (.mcons "environment" (.seq ["TOKEN=$\x7bAPI_TOKEN\x7d"]) .mnil))
        .mnil) .mnil)) :=
  ⟨by decide, by decide,
    (C7_strip_ports_frame
      "services:\n  web:\n    ports:\n      - \"80:80\"\n    environment:\n      - TOKEN=$\x7bAPI_TOKEN\x7d\n"
      "services:\n    web:\n        environment:\n            - TOKEN=$\x7bAPI_TOKEN\x7d\n"
      [] "services"
      (.mcons "web"
        (.mcons "ports" (.seq ["\"80:80\""])
          (.mcons "environment" (.seq ["TOKEN=$\x7bAPI_TOKEN\x7d"]) .mnil))
        .mnil) .mnil
      (by decide) (by decide)).1⟩

/-- C8 (corrected): a non-mapping root returns the input bytes unchanged;
a mapping root without a top-level services key is returned as the
re-serialization of the unmodified parsed tree, which is not in general
byte-identical to the input. -/
theorem C8_nonmapping_root_unchanged (M : String) (K : List String) :
    (∀ s, parseDoc M = some (.scalar s) → StripPorts M K = .ok M) ∧
    (∀ items, parseDoc M = some (.seq items) → StripPorts M K = .ok M) ∧
    (∀ k v r, parseDoc M = some (.mcons k v r) →
      (∀ e ∈ toEntries (.mcons k v r), ¬ e.1 = "services") →
      StripPorts M K = .ok (printDoc (.mcons k v r))) := by
  refine ⟨?_, ?_, ?_⟩
  · intro s hp
    simp only [StripPorts]
    rw [hp]
  · intro items hp
    simp only [StripPorts]
    rw [hp]
  · intro k v r hp hnone
    simp only [StripPorts]
    rw [hp]
    show Except.ok (printDoc (stripRoot K (.mcons k v r))) =
      .ok (printDoc (.mcons k v r))
    rw [stripRoot_id_of_no_services hnone]

/-- Witness for C8 at a sequence root and at a services-free mapping. -/
theorem C8_nonmapping_root_unchanged_witness :
    parseDoc "- a\n- b\n" = some (.seq ["a", "b"]) ∧
    StripPorts "- a\n- b\n" [] = .ok "- a\n- b\n" :=
  ⟨by decide,
    (C8_nonmapping_root_unchanged "- a\n- b\n" []).2.1 ["a", "b"] (by decide)⟩

/-- Counterexample to C8 as stated: a mapping root without services is
re-serialized at yaml.v3 default four-space indentation, so the output
bytes differ from a two-space-indented input. -/
theorem C8_missing_services_reindented :
    StripPorts "volumes:\n  data:\n    driver: local\n" [] =
      .ok "volumes:\n    data:\n        driver: local\n" ∧
    ¬ ("volumes:\n    data:\n        driver: local\n" =
       "volumes:\n  data:\n    driver: local\n") :=
  ⟨by decide, by decide⟩

end CaddyAtc
